import Mathlib

/-!
Shallow embedding of the `nlm2elf` converter (src/bin/nlm2elf.rs) and proofs
about its bit streamer, Huffman-style decompressor, NLM container reader and
ELF emission logic.

Conventions of the embedding:
* Bytes are `Nat`s; well-formed inputs have every byte `< 256` (stated as a
  hypothesis where a proof needs it).
* `u32` arithmetic that can wrap is taken modulo `2 ^ 32` (release-mode
  two's-complement wrapping); where a masked value makes overflow impossible
  the plain operation is kept.
* Fallible operations return `Option`; a Rust panic (out-of-bounds index,
  integer underflow, `copy_from_slice` length mismatch, the explicit
  end-of-stream failure) is `none`.  Functions returning
  `Result<_, NLMError>` become `Option (Except NLMError _)`: `none` is a
  panic, `some (.error e)` is `Err(e)`, `some (.ok v)` is `Ok(v)`.
* Loops whose termination is driven by the finite input stream are given
  explicit fuel; the fuel passed by the top-level entry points is larger than
  the number of iterations any terminating run can make (every iteration
  consumes at least one bit of the finite stream), so fuel exhaustion only
  replaces divergence, never a successful Rust run.
-/

set_option maxRecDepth 100000

namespace Nlm2Elf

/-- Little-endian assembly of a byte list into a natural number: byte `i`
contributes `bs[i] * 256 ^ i`.  This mirrors both `read_u32::<LittleEndian>`
and the LSB-first `value |= (v as u32) << shift` refill loop. -/
def leVal : List Nat → Nat
  | [] => 0
  | b :: rest => b + 256 * leVal rest

/-- State of `Streamer<R>` together with its underlying byte cursor:
`value`/`bits_left` are the buffered bits, `data`/`pos` model the
`Cursor<&[u8]>` the streamer reads from. -/
structure Streamer where
  value : Nat
  bits_left : Nat
  data : List Nat
  pos : Nat
deriving Repr, DecidableEq, Inhabited

/-- `Streamer::new` over a cursor positioned at `pos`. -/
def Streamer.new (data : List Nat) (pos : Nat) : Streamer :=
  { value := 0, bits_left := 0, data := data, pos := pos }

/-- `Streamer::fill_buffer_and_return_bit`.  First tries to read a full
little-endian `u32`; on failure (fewer than 4 bytes remain; `Cursor`'s
`read_exact` does not advance on failure) it reads all remaining bytes
LSB-first.  An empty refill is the `end of stream` failure. -/
def Streamer.fill_buffer_and_return_bit (s : Streamer) : Option (Nat × Streamer) :=
  if s.pos + 4 ≤ s.data.length then
    some (leVal ((s.data.drop s.pos).take 4) % 2,
          { s with value := leVal ((s.data.drop s.pos).take 4) / 2,
                   bits_left := 31, pos := s.pos + 4 })
  else
    if s.bits_left + 8 * (s.data.drop s.pos).length = 0 then
      none
    else
      some (leVal (s.data.drop s.pos) % 2,
            { s with value := leVal (s.data.drop s.pos) / 2,
                     bits_left := s.bits_left + 8 * (s.data.drop s.pos).length - 1,
                     pos := max s.pos s.data.length })

/-- `Streamer::read_bit`. -/
def Streamer.read_bit (s : Streamer) : Option (Nat × Streamer) :=
  if s.bits_left ≠ 0 then
    some (s.value % 2, { s with bits_left := s.bits_left - 1, value := s.value / 2 })
  else
    s.fill_buffer_and_return_bit

/-- Loop body of `Streamer::read_bits`: `bit` counts from `count` down, `pos`
is the index of the next output bit, `result` accumulates `result |= 1 << bit`. -/
def Streamer.read_bits_aux : Nat → Nat → Nat → Streamer → Option (Nat × Streamer)
  | 0, _, result, s => some (result, s)
  | n + 1, bit, result, s =>
    match (if s.bits_left = 0 then s.fill_buffer_and_return_bit
           else some (s.value % 2,
                      { s with bits_left := s.bits_left - 1, value := s.value / 2 })) with
    | none => none
    | some (val, s') =>
      Streamer.read_bits_aux n (bit + 1) (if val ≠ 0 then result ||| 2 ^ bit else result) s'

/-- `Streamer::read_bits(count)`. -/
def Streamer.read_bits (s : Streamer) (count : Nat) : Option (Nat × Streamer) :=
  Streamer.read_bits_aux count 0 0 s

/-- `Streamer::drop_bits`: discard buffered bits until `bits_left` is a
multiple of eight. -/
def Streamer.drop_bits (s : Streamer) : Streamer :=
  { s with value := s.value / 2 ^ (s.bits_left % 8),
           bits_left := s.bits_left - s.bits_left % 8 }

/-- A Huffman node: the source's `Node { link: Option<(Box<Node>, Box<Node>)>, value: u8 }`,
which is a leaf exactly when `link` is `None`. -/
inductive Node where
  | leaf (value : Nat)
  | node (first second : Node)
deriving Repr, DecidableEq, Inhabited

/-- `read_tree`: bit 1 introduces a leaf holding the next 8 bits, bit 0 a left
then a right subtree.  `fuel` bounds the recursion depth; every level consumes
at least one bit, so any fuel above the total bit count of the stream is
equivalent to the unbounded Rust recursion. -/
def read_tree (fuel : Nat) (s : Streamer) : Option (Node × Streamer) :=
  match fuel with
  | 0 => none
  | fuel + 1 =>
    match s.read_bit with
    | none => none
    | some (bit, s) =>
      if bit ≠ 0 then
        match s.read_bits 8 with
        | none => none
        | some (v, s) => some (.leaf v, s)
      else
        match read_tree fuel s with
        | none => none
        | some (first, s) =>
          match read_tree fuel s with
          | none => none
          | some (second, s) => some (.node first second, s)

/-- `decode_from_tree`: descend from the root, bit 0 to the first child,
bit 1 to the second, until a leaf is hit. -/
def decode_from_tree (s : Streamer) : Node → Option (Nat × Streamer)
  | .leaf v => some (v, s)
  | .node first second =>
    match s.read_bit with
    | none => none
    | some (bit, s) =>
      if bit = 0 then decode_from_tree s first else decode_from_tree s second

/-- The copy loop `for n in 0..b2 { let b = result[offset + n]; result.push(b) }`.
The read index is tracked directly; an out-of-range read is the Rust index
panic. -/
def copy_back (result : List Nat) (offset : Nat) : Nat → Option (List Nat)
  | 0 => some result
  | count + 1 =>
    match result[offset]? with
    | none => none
    | some b => copy_back (result ++ [b]) (offset + 1) count

/-- Reads `count` raw bytes via `read_bits(8)`, appending each to `acc`
(the raw-byte loops of the `0xff` escape). -/
def read_raw_bytes (s : Streamer) (acc : List Nat) : Nat → Option (List Nat × Streamer)
  | 0 => some (acc, s)
  | count + 1 =>
    match s.read_bits 8 with
    | none => none
    | some (v, s) => read_raw_bytes s (acc ++ [v]) count

/-- Ghost record of one copy-back command: the computed distance `delta`, the
byte count to copy, and the output length at the point of use.  Collected only
so theorems can speak about every distance the unpacker computes; it has no
counterpart in the Rust state. -/
structure CopyEvent where
  delta : Nat
  count : Nat
  out_len : Nat
deriving Repr, DecidableEq

/-- `unpack`: the main decompression loop.  `trace` accumulates a `CopyEvent`
for every copy-back command that passes the `result.len() - delta` subtraction
(a distance larger than the current output makes that subtraction underflow,
a Rust panic, hence `none`).  The distance `delta = (b3 << 5) + v` and the
escape count `n = (v << 16) + (bh << 8) + bl + 1` are written inline.  Fuel as
in `read_tree`: every iteration consumes at least the tag bit. -/
def unpack (fuel : Nat) (s : Streamer) (decompress_len : Nat)
    (tree1 tree2 tree3 : Node) (result : List Nat) (trace : List CopyEvent) :
    Option (List Nat × List CopyEvent) :=
  match fuel with
  | 0 => none
  | fuel + 1 =>
    if result.length < decompress_len then
      match s.read_bit with
      | none => none
      | some (v, s) =>
        if v ≠ 0 then
          match decode_from_tree s tree1 with
          | none => none
          | some (b1, s) =>
            unpack fuel s decompress_len tree1 tree2 tree3 (result ++ [b1]) trace
        else
          match decode_from_tree s tree2 with
          | none => none
          | some (b2, s) =>
            if b2 ≤ 0xfd then
              match s.read_bits 5 with
              | none => none
              | some (v5, s) =>
                match decode_from_tree s tree3 with
                | none => none
                | some (b3, s) =>
                  if b3 * 32 + v5 ≤ result.length then
                    match copy_back result (result.length - (b3 * 32 + v5)) b2 with
                    | none => none
                    | some result' =>
                      unpack fuel s decompress_len tree1 tree2 tree3 result'
                        (trace ++ [⟨b3 * 32 + v5, b2, result.length⟩])
                  else none
            else if b2 = 0xff then
              match read_raw_bytes s.drop_bits result 8 with
              | none => none
              | some (result, s) =>
                match s.read_bits 8 with
                | none => none
                | some (bl, s) =>
                  match s.read_bits 8 with
                  | none => none
                  | some (bh, s) =>
                    match s.read_bits 8 with
                    | none => none
                    | some (v, s) =>
                      match read_raw_bytes s (result ++ [bl] ++ [bh] ++ [v])
                          (v * 65536 + bh * 256 + bl + 1) with
                      | none => none
                      | some (result, s) =>
                        unpack fuel s decompress_len tree1 tree2 tree3 result trace
            else
              match s.read_bits 13 with
              | none => none
              | some (b2', s) =>
                match s.read_bits 5 with
                | none => none
                | some (v5, s) =>
                  match decode_from_tree s tree3 with
                  | none => none
                  | some (b3, s) =>
                    if b3 * 32 + v5 ≤ result.length then
                      match copy_back result (result.length - (b3 * 32 + v5)) b2' with
                      | none => none
                      | some result' =>
                        unpack fuel s decompress_len tree1 tree2 tree3 result'
                          (trace ++ [⟨b3 * 32 + v5, b2', result.length⟩])
                    else none
    else
      some (result, trace)

/-- Read `n` bytes at `pos` (the cursor's `read_exact`): fails without
consuming when fewer than `n` bytes remain. -/
def readBytes? (data : List Nat) (pos n : Nat) : Option (List Nat × Nat) :=
  if pos + n ≤ data.length then some ((data.drop pos).take n, pos + n) else none

/-- `read_u8` at `pos`. -/
def readU8? (data : List Nat) (pos : Nat) : Option (Nat × Nat) :=
  match data[pos]? with
  | some b => some (b, pos + 1)
  | none => none

/-- `read_u32::<LittleEndian>` at `pos`. -/
def readU32? (data : List Nat) (pos : Nat) : Option (Nat × Nat) :=
  match readBytes? data pos 4 with
  | some (bs, p) => some (leVal bs, p)
  | none => none

/-- The fixed-layout `NLMHeader`. -/
structure NLMHeader where
  magic : List Nat
  load_version : Nat
  name : List Nat
  code_offs : Nat
  code_len : Nat
  data_offs : Nat
  data_len : Nat
  uninit_len : Nat
  custom_data_offs : Nat
  custom_data_len : Nat
  autoload_offs : Nat
  autoload_len : Nat
  fixup_offs : Nat
  fixup_len : Nat
  externals_offs : Nat
  externals_len : Nat
  exported_offs : Nat
  exported_len : Nat
  debug_offs : Nat
  debug_len : Nat
  start_offs : Nat
  term_offs : Nat
  check_offs : Nat
  nlm_type : Nat
deriving Repr, DecidableEq, Inhabited

/-- The little-endian `u32` at a fixed offset of a byte list. -/
def u32At (data : List Nat) (pos : Nat) : Nat :=
  leVal ((data.drop pos).take 4)

/-- `NLMHeader::from`: 24 magic bytes, `load_version`, 14 name bytes, twenty
`u32` fields, one `u8` — 123 bytes of fixed layout read sequentially.  The
sequential cursor reads are equivalent to reads at the fixed offsets
24, 28, 42, 46, …, 118, 122, and the whole sequence succeeds exactly when at
least 123 bytes are present (each earlier `read_exact` needs less than the
final one).  A short read is an I/O error, modelled as `none` here and mapped
to `NLMError::IoError` by the caller. -/
def NLMHeader.fromBytes? (data : List Nat) : Option NLMHeader :=
  if 123 ≤ data.length then
    some { magic := data.take 24
           load_version := u32At data 24
           name := (data.drop 28).take 14
           code_offs := u32At data 42
           code_len := u32At data 46
           data_offs := u32At data 50
           data_len := u32At data 54
           uninit_len := u32At data 58
           custom_data_offs := u32At data 62
           custom_data_len := u32At data 66
           autoload_offs := u32At data 70
           autoload_len := u32At data 74
           fixup_offs := u32At data 78
           fixup_len := u32At data 82
           externals_offs := u32At data 86
           externals_len := u32At data 90
           exported_offs := u32At data 94
           exported_len := u32At data 98
           debug_offs := u32At data 102
           debug_len := u32At data 106
           start_offs := u32At data 110
           term_offs := u32At data 114
           check_offs := u32At data 118
           nlm_type := data.getD 122 0 }
  else none

/-- The 24-byte magic `"NetWare Loadable Module"` followed by `0x1a`. -/
def nlmMagic : List Nat :=
  [78, 101, 116, 87, 97, 114, 101, 32, 76, 111, 97, 100, 97, 98, 108, 101,
   32, 77, 111, 100, 117, 108, 101, 0x1a]

/-- `NLMHeader::is_magic_valid`. -/
def NLMHeader.is_magic_valid (hdr : NLMHeader) : Bool :=
  hdr.magic = nlmMagic

/-- `NLMError` (the `IoError` payload is dropped: the embedding does not
distinguish I/O error causes). -/
inductive NLMError where
  | ioError
  | invalidCompression (a b : Nat)
deriving Repr, DecidableEq

def NLM_PACKED_OFFSET : Nat := 400

structure NLM where
  header : NLMHeader
  data : List Nat
deriving Repr, DecidableEq, Inhabited

/-- Fuel bound for the decompression loops: every iteration of `read_tree`
and `unpack` consumes at least one bit, and the stream holds at most
`8 * data.length` bits plus the 31 buffered ones, so this fuel is never the
reason a run that Rust completes would fail. -/
def nlmFuel (data : List Nat) : Nat := 8 * data.length + 33

/-- `NLM::new`.  For a packed image (`load_version = 0x84`) the cursor is
seeked to offset 400, the two preamble words and the total length are read,
three trees are read, the payload is unpacked, and the unpacked image is
assembled as the original first 400 bytes, the unpacked payload, and byte
`0x18` overwritten with `0x04`.  The guards mirror the Rust panics: the
`length - 400` underflow, the `data[0..400]` slice, and the
`copy_from_slice` length mismatch (the unpack loop may overshoot
`decompress_len`). -/
def NLM.new (data : List Nat) : Option (Except NLMError NLM) :=
  match NLMHeader.fromBytes? data with
  | none => some (.error .ioError)
  | some header =>
    if header.load_version ≠ 0x84 then
      some (.ok ⟨header, data⟩)
    else
      match (Streamer.new data NLM_PACKED_OFFSET).read_bits 8 with
      | none => none
      | some (a, s) =>
      match s.read_bits 8 with
      | none => none
      | some (b, s) =>
      if a ≠ 1 ∨ b ≠ 10 then
        some (.error (.invalidCompression a b))
      else
      match s.read_bits 32 with
      | none => none
      | some (length, s) =>
      match read_tree (nlmFuel data) s with
      | none => none
      | some (tree1, s) =>
      match read_tree (nlmFuel data) s with
      | none => none
      | some (tree2, s) =>
      match read_tree (nlmFuel data) s with
      | none => none
      | some (tree3, s) =>
      if NLM_PACKED_OFFSET ≤ length then
        match unpack (nlmFuel data) s (length - NLM_PACKED_OFFSET)
                tree1 tree2 tree3 [] [] with
        | none => none
        | some (unpacked, _) =>
          if NLM_PACKED_OFFSET ≤ data.length then
            if unpacked.length = length - NLM_PACKED_OFFSET then
              some (.ok ⟨header,
                ((data.take NLM_PACKED_OFFSET) ++ unpacked).set 0x18 0x4⟩)
            else none
          else none
      else none

/-- The total length declared by the compressed preamble: the 32-bit word
after the two 8-bit preamble words at offset 400. -/
def declaredLength (data : List Nat) : Option Nat :=
  match (Streamer.new data NLM_PACKED_OFFSET).read_bits 8 with
  | none => none
  | some (_, s) =>
  match s.read_bits 8 with
  | none => none
  | some (_, s) =>
  match s.read_bits 32 with
  | none => none
  | some (length, _) => some length

/-- The two 8-bit preamble words decoded at offset 400. -/
def preamblePair (data : List Nat) : Option (Nat × Nat) :=
  match (Streamer.new data NLM_PACKED_OFFSET).read_bits 8 with
  | none => none
  | some (a, s) =>
  match s.read_bits 8 with
  | none => none
  | some (b, _) => some (a, b)

/-- `NLM::write_nlm` writes `self.data` byte for byte; the modelled output is
those bytes. -/
def NLM.write_nlm (nlm : NLM) : List Nat := nlm.data

/-- Exact UTF-8 validity of a byte list, as checked by
`std::str::from_utf8(..).unwrap()` in the table readers (the `unwrap` panics
on invalid input).  Names stay as raw byte lists in the embedding; validity
is the only observable effect of the `String` round trip. -/
def validUtf8 : List Nat → Bool
  | [] => true
  | b1 :: rest =>
    if b1 < 0x80 then validUtf8 rest
    else if 0xc2 ≤ b1 ∧ b1 ≤ 0xdf then
      match rest with
      | b2 :: rest2 => 0x80 ≤ b2 && b2 ≤ 0xbf && validUtf8 rest2
      | [] => false
    else if 0xe0 ≤ b1 ∧ b1 ≤ 0xef then
      match rest with
      | b2 :: b3 :: rest3 =>
        (if b1 = 0xe0 then 0xa0 ≤ b2 && b2 ≤ 0xbf
         else if b1 = 0xed then 0x80 ≤ b2 && b2 ≤ 0x9f
         else 0x80 ≤ b2 && b2 ≤ 0xbf) &&
        (0x80 ≤ b3 && b3 ≤ 0xbf) && validUtf8 rest3
      | _ => false
    else if 0xf0 ≤ b1 ∧ b1 ≤ 0xf4 then
      match rest with
      | b2 :: b3 :: b4 :: rest4 =>
        (if b1 = 0xf0 then 0x90 ≤ b2 && b2 ≤ 0xbf
         else if b1 = 0xf4 then 0x80 ≤ b2 && b2 ≤ 0x8f
         else 0x80 ≤ b2 && b2 ≤ 0xbf) &&
        (0x80 ≤ b3 && b3 ≤ 0xbf) && (0x80 ≤ b4 && b4 ≤ 0xbf) && validUtf8 rest4
      | _ => false
    else false

/-- `NLMExternalRef`: 4-bit type nibble over a 26-bit value. -/
inductive NLMExternalRef where
  | relRefFromData (v : Nat)
  | relRefFromCode (v : Nat)
  | absRefFromData (v : Nat)
  | absRefFromCode (v : Nat)
deriving Repr, DecidableEq

/-- `NLMExternal`: a named external with its references (name kept as bytes). -/
structure NLMExternal where
  name : List Nat
  refs : List NLMExternalRef
deriving Repr, DecidableEq

/-- `NLMExport` (name kept as bytes). -/
inductive NLMExport where
  | code (name : List Nat) (v : Nat)
  | data (name : List Nat) (v : Nat)
deriving Repr, DecidableEq

/-- `NLMFixup`. -/
inductive NLMFixup where
  | absRefToDataFromData (v : Nat)
  | absRefToDataFromCode (v : Nat)
  | absRefToCodeFromData (v : Nat)
  | absRefToCodeFromCode (v : Nat)
deriving Repr, DecidableEq

/-- The inner reference loop of `get_externals`: `num_relocs` `u32` words,
each split as top nibble `val >> 28` and value `val & 0x3ffffff`.  A short
read is `Err(IoError)`; an unrecognized nibble is a Rust `panic`, hence
`none`. -/
def readExternalRefs (data : List Nat) (pos : Nat) (count : Nat)
    (acc : List NLMExternalRef) : Option (Except NLMError (List NLMExternalRef × Nat)) :=
  match count with
  | 0 => some (.ok (acc, pos))
  | count + 1 =>
    match readU32? data pos with
    | none => some (.error .ioError)
    | some (val, pos) =>
      let ref_val := val % 2 ^ 26
      match val / 2 ^ 28 with
      | 0x0 => readExternalRefs data pos count (acc ++ [.relRefFromData ref_val])
      | 0x4 => readExternalRefs data pos count (acc ++ [.relRefFromCode ref_val])
      | 0x8 => readExternalRefs data pos count (acc ++ [.absRefFromData ref_val])
      | 0xc => readExternalRefs data pos count (acc ++ [.absRefFromCode ref_val])
      | _ => none

/-- The outer loop of `get_externals`: a length-prefixed name, a reference
count, then that many references, repeated `count` times. -/
def readExternals (data : List Nat) (pos : Nat) (count : Nat)
    (acc : List NLMExternal) : Option (Except NLMError (List NLMExternal)) :=
  match count with
  | 0 => some (.ok acc)
  | count + 1 =>
    match readU8? data pos with
    | none => some (.error .ioError)
    | some (name_len, pos) =>
    match readBytes? data pos name_len with
    | none => some (.error .ioError)
    | some (name, pos) =>
    match readU32? data pos with
    | none => some (.error .ioError)
    | some (num_relocs, pos) =>
    if validUtf8 name then
      match readExternalRefs data pos num_relocs [] with
      | none => none
      | some (.error e) => some (.error e)
      | some (.ok (refs, pos)) => readExternals data pos count (acc ++ [⟨name, refs⟩])
    else none

/-- `NLM::get_externals`: a cursor over `self.data[externals_offs..]` (the
slice itself panics when the offset exceeds the length). -/
def NLM.get_externals (nlm : NLM) : Option (Except NLMError (List NLMExternal)) :=
  if nlm.header.externals_offs ≤ nlm.data.length then
    readExternals (nlm.data.drop nlm.header.externals_offs) 0
      nlm.header.externals_len []
  else none

/-- The loop of `get_exports`: a length-prefixed name and a `u32` whose top
nibble selects data (0) or code (8); anything else panics. -/
def readExports (data : List Nat) (pos : Nat) (count : Nat)
    (acc : List NLMExport) : Option (Except NLMError (List NLMExport)) :=
  match count with
  | 0 => some (.ok acc)
  | count + 1 =>
    match readU8? data pos with
    | none => some (.error .ioError)
    | some (symbol_len, pos) =>
    match readBytes? data pos symbol_len with
    | none => some (.error .ioError)
    | some (symbol, pos) =>
    match readU32? data pos with
    | none => some (.error .ioError)
    | some (val, pos) =>
    if validUtf8 symbol then
      let exp_val := val % 2 ^ 26
      match val / 2 ^ 28 with
      | 0x0 => readExports data pos count (acc ++ [.data symbol exp_val])
      | 0x8 => readExports data pos count (acc ++ [.code symbol exp_val])
      | _ => none
    else none

/-- `NLM::get_exports`. -/
def NLM.get_exports (nlm : NLM) : Option (Except NLMError (List NLMExport)) :=
  if nlm.header.exported_offs ≤ nlm.data.length then
    readExports (nlm.data.drop nlm.header.exported_offs) 0
      nlm.header.exported_len []
  else none

/-- The loop of `get_fixups`: `u32` words with the same top-nibble scheme. -/
def readFixups (data : List Nat) (pos : Nat) (count : Nat)
    (acc : List NLMFixup) : Option (Except NLMError (List NLMFixup)) :=
  match count with
  | 0 => some (.ok acc)
  | count + 1 =>
    match readU32? data pos with
    | none => some (.error .ioError)
    | some (val, pos) =>
      let fixup_val := val % 2 ^ 26
      match val / 2 ^ 28 with
      | 0x0 => readFixups data pos count (acc ++ [.absRefToDataFromData fixup_val])
      | 0x4 => readFixups data pos count (acc ++ [.absRefToDataFromCode fixup_val])
      | 0x8 => readFixups data pos count (acc ++ [.absRefToCodeFromData fixup_val])
      | 0xc => readFixups data pos count (acc ++ [.absRefToCodeFromCode fixup_val])
      | _ => none

/-- `NLM::get_fixups`. -/
def NLM.get_fixups (nlm : NLM) : Option (Except NLMError (List NLMFixup)) :=
  if nlm.header.fixup_offs ≤ nlm.data.length then
    readFixups (nlm.data.drop nlm.header.fixup_offs) 0 nlm.header.fixup_len []
  else none

/-- The loop of `get_autoload`: length-prefixed module names. -/
def readAutoload (data : List Nat) (pos : Nat) (count : Nat)
    (acc : List (List Nat)) : Option (Except NLMError (List (List Nat))) :=
  match count with
  | 0 => some (.ok acc)
  | count + 1 =>
    match readU8? data pos with
    | none => some (.error .ioError)
    | some (entry_len, pos) =>
    match readBytes? data pos entry_len with
    | none => some (.error .ioError)
    | some (entry, pos) =>
    if validUtf8 entry then readAutoload data pos count (acc ++ [entry])
    else none

/-- `NLM::get_autoload`. -/
def NLM.get_autoload (nlm : NLM) : Option (Except NLMError (List (List Nat))) :=
  if nlm.header.autoload_offs ≤ nlm.data.length then
    readAutoload (nlm.data.drop nlm.header.autoload_offs) 0
      nlm.header.autoload_len []
  else none

def NLM_CODE_VADDR : Nat := 0x10000000
def NLM_DATA_VADDR : Nat := 0x40000000

/-- `2 ^ 32`, the modulus of wrapping `u32` arithmetic. -/
def U32MOD : Nat := 4294967296

/-- ELF constants used by the emitter (values from the ELF-32 specification,
as provided by the `object` crate). -/
def PT_LOAD : Nat := 1
def PF_X : Nat := 1
def PF_W : Nat := 2
def PF_R : Nat := 4
def R_386_32 : Nat := 1
def R_386_PC32 : Nat := 2
def STB_LOCAL : Nat := 0
def STB_GLOBAL : Nat := 1
def STT_NOTYPE : Nat := 0
def STT_FUNC : Nat := 2

/-- `LittleEndian::read_u32` of the four bytes at `offset` of the in-memory
image (callers guard `offset + 4 ≤ length`). -/
def readLE32 (data : List Nat) (offset : Nat) : Nat :=
  data.getD offset 0 + 256 * data.getD (offset + 1) 0 +
    65536 * data.getD (offset + 2) 0 + 16777216 * data.getD (offset + 3) 0

/-- `LittleEndian::write_u32` of `v` at `offset`. -/
def writeLE32 (data : List Nat) (offset v : Nat) : List Nat :=
  ((((data.set offset (v % 256)).set (offset + 1) (v / 256 % 256)).set
      (offset + 2) (v / 65536 % 256)).set (offset + 3) (v / 16777216 % 256))

/-- The byte offset and virtual address a fixup resolves to: local offset
plus the segment's file offset (wrapping `u32` addition), and the vaddr of
the referenced segment. -/
def fixupTarget (hdr : NLMHeader) : NLMFixup → Nat × Nat
  | .absRefToDataFromData o => ((o + hdr.data_offs) % U32MOD, NLM_DATA_VADDR)
  | .absRefToDataFromCode o => ((o + hdr.code_offs) % U32MOD, NLM_DATA_VADDR)
  | .absRefToCodeFromData o => ((o + hdr.data_offs) % U32MOD, NLM_CODE_VADDR)
  | .absRefToCodeFromCode o => ((o + hdr.code_offs) % U32MOD, NLM_CODE_VADDR)

/-- One arm of the fixup loop in `write_elf`: read the little-endian word at
the target, add the selected vaddr (wrapping), write it back.  The
`nlm_data[offset..offset + 4]` slice panics when out of range. -/
def applyFixup (hdr : NLMHeader) (data : List Nat) (f : NLMFixup) : Option (List Nat) :=
  let t := fixupTarget hdr f
  if t.1 + 4 ≤ data.length then
    some (writeLE32 data t.1 ((readLE32 data t.1 + t.2) % U32MOD))
  else none

/-- The fixup loop, in table order. -/
def applyFixups (hdr : NLMHeader) (data : List Nat) : List NLMFixup → Option (List Nat)
  | [] => some data
  | f :: rest =>
    match applyFixup hdr data f with
    | none => none
    | some d => applyFixups hdr d rest

/-- An `ElfSymbol` as collected by `write_elf`: name bytes, the
`SymbolIndex` handed out by `reserve_symbol_index` (the `object` crate
assigns 0 to the reserved null symbol and consecutive indices after it),
the section it belongs to (`some true` = .text, `some false` = .data,
`none` = undefined, serialized as `st_shndx = 0`), value and `st_info`. -/
structure ElfSymbol where
  name : List Nat
  index : Nat
  sectIsCode : Option Bool
  value : Nat
  info : Nat
deriving Repr, DecidableEq

/-- A symbol table entry as written by `write_symbol` (the fields of
`object::write::elf::Sym` the emitter controls). -/
structure WrittenSym where
  name : List Nat
  sectIsCode : Option Bool
  st_info : Nat
  st_value : Nat
deriving Repr, DecidableEq, Inhabited

def ElfSymbol.toWritten (s : ElfSymbol) : WrittenSym :=
  ⟨s.name, s.sectIsCode, s.info, s.value⟩

/-- The all-zero entry emitted by `write_null_symbol`. -/
def nullWrittenSym : WrittenSym := ⟨[], none, 0, 0⟩

/-- A `REL`-flavor relocation as written by `write_relocation`. -/
structure Rel where
  r_offset : Nat
  r_sym : Nat
  r_type : Nat
deriving Repr, DecidableEq

/-- A program header as written by `write_program_header` (the file offset
fields computed by the `object` crate's reservation engine are outside the
model; the claims only concern type, flags, addresses and sizes). -/
structure ProgramHeader where
  p_type : Nat
  p_flags : Nat
  p_vaddr : Nat
  p_paddr : Nat
  p_filesz : Nat
  p_memsz : Nat
  p_align : Nat
deriving Repr, DecidableEq

/-- The logical content of the emitted ELF: everything the emitter decides
(entry point, program headers, the symbol table in written order starting
with the null entry, `sh_info` of `.symtab`, the two relocation tables,
section contents).  Serialization to file bytes is performed by the
`object` crate and is outside the model. -/
structure ElfOutput where
  entry : Nat
  programHeaders : List ProgramHeader
  symbols : List WrittenSym
  symtabShInfo : Nat
  relText : List Rel
  relData : List Rel
  codeBytes : List Nat
  dataBytes : List Nat
  autoloadContent : List Nat
deriving Repr, DecidableEq, Inhabited

/-- The `ElfSymbol` built for one export: LOCAL `STT_FUNC`, value = segment
offset plus the segment's vaddr (the masked 26-bit value cannot wrap). -/
def mkExportSym (exp : NLMExport) (idx : Nat) : ElfSymbol :=
  match exp with
  | .code s v => ⟨s, idx, some true, v + NLM_CODE_VADDR, STB_LOCAL * 16 + STT_FUNC⟩
  | .data s v => ⟨s, idx, some false, v + NLM_DATA_VADDR, STB_LOCAL * 16 + STT_FUNC⟩

/-- The export symbols in table order, with consecutive indices from `idx`. -/
def exportSyms : List NLMExport → Nat → List ElfSymbol
  | [], _ => []
  | e :: rest, idx => mkExportSym e idx :: exportSyms rest (idx + 1)

/-- ASCII bytes of a name used by the emitter. -/
def strBytes (s : String) : List Nat := s.toList.map Char.toNat

/-- The three well-known entry-point symbols `nlm_start`, `nlm_terminate`,
`nlm_check` (LOCAL `STT_FUNC` in `.text`; the header offsets are full `u32`s
so the vaddr addition wraps). -/
def entrySyms (hdr : NLMHeader) (idx : Nat) : List ElfSymbol :=
  [⟨strBytes "nlm_start", idx, some true,
      (hdr.start_offs + NLM_CODE_VADDR) % U32MOD, STB_LOCAL * 16 + STT_FUNC⟩,
   ⟨strBytes "nlm_terminate", idx + 1, some true,
      (hdr.term_offs + NLM_CODE_VADDR) % U32MOD, STB_LOCAL * 16 + STT_FUNC⟩,
   ⟨strBytes "nlm_check", idx + 2, some true,
      (hdr.check_offs + NLM_CODE_VADDR) % U32MOD, STB_LOCAL * 16 + STT_FUNC⟩]

/-- The `ElfSymbol` built for one external: GLOBAL `STT_NOTYPE`, undefined,
value 0. -/
def mkExternalSym (ext : NLMExternal) (idx : Nat) : ElfSymbol :=
  ⟨ext.name, idx, none, 0, STB_GLOBAL * 16 + STT_NOTYPE⟩

/-- The external symbols in table order, with consecutive indices from `idx`. -/
def externalSyms : List NLMExternal → Nat → List ElfSymbol
  | [], _ => []
  | ext :: rest, idx => mkExternalSym ext idx :: externalSyms rest (idx + 1)

/-- The symbol list `write_elf` collects ahead of the writer calls
(`elf_symbols` in the source): exports as LOCAL `STT_FUNC`, the three entry
points, externals as GLOBAL undefined — with the consecutive indices
`reserve_symbol_index` hands out after the null symbol. -/
def elfSymbolsOf (hdr : NLMHeader) (exports : List NLMExport)
    (externals : List NLMExternal) : List ElfSymbol :=
  exportSyms exports 1 ++ entrySyms hdr (exports.length + 1) ++
    externalSyms externals (exports.length + 4)

/-- The inner loop of the `.rel.text` pass for the references of external
number `n`: code references produce a relocation whose `r_sym` is
`elf_symbols[symtab_num_local + n - 1].index` (an out-of-range index would be
a Rust panic); data references are skipped. -/
def codeRelocsForExt (symtab_num_local : Nat) (elf_symbols : List ElfSymbol)
    (n : Nat) : List NLMExternalRef → Option (List Rel)
  | [] => some []
  | .relRefFromCode rel :: rest =>
    match elf_symbols[symtab_num_local + n - 1]? with
    | none => none
    | some sym =>
      match codeRelocsForExt symtab_num_local elf_symbols n rest with
      | none => none
      | some rs =>
        some (⟨(rel + NLM_CODE_VADDR) % U32MOD, sym.index, R_386_PC32⟩ :: rs)
  | .absRefFromCode av :: rest =>
    match elf_symbols[symtab_num_local + n - 1]? with
    | none => none
    | some sym =>
      match codeRelocsForExt symtab_num_local elf_symbols n rest with
      | none => none
      | some rs =>
        some (⟨(av + NLM_CODE_VADDR) % U32MOD, sym.index, R_386_32⟩ :: rs)
  | .relRefFromData _ :: rest => codeRelocsForExt symtab_num_local elf_symbols n rest
  | .absRefFromData _ :: rest => codeRelocsForExt symtab_num_local elf_symbols n rest

/-- The outer loop of the `.rel.text` pass: externals in table order,
`n` enumerating them. -/
def codeRelocs (symtab_num_local : Nat) (elf_symbols : List ElfSymbol)
    (n : Nat) : List NLMExternal → Option (List Rel)
  | [] => some []
  | ext :: rest =>
    match codeRelocsForExt symtab_num_local elf_symbols n ext.refs with
    | none => none
    | some rs =>
      match codeRelocs symtab_num_local elf_symbols (n + 1) rest with
      | none => none
      | some rs' => some (rs ++ rs')

/-- The inner loop of the `.rel.data` pass (mirror image: data references
produce relocations against `NLM_DATA_VADDR`, code references are skipped). -/
def dataRelocsForExt (symtab_num_local : Nat) (elf_symbols : List ElfSymbol)
    (n : Nat) : List NLMExternalRef → Option (List Rel)
  | [] => some []
  | .relRefFromData rel :: rest =>
    match elf_symbols[symtab_num_local + n - 1]? with
    | none => none
    | some sym =>
      match dataRelocsForExt symtab_num_local elf_symbols n rest with
      | none => none
      | some rs =>
        some (⟨(rel + NLM_DATA_VADDR) % U32MOD, sym.index, R_386_PC32⟩ :: rs)
  | .absRefFromData av :: rest =>
    match elf_symbols[symtab_num_local + n - 1]? with
    | none => none
    | some sym =>
      match dataRelocsForExt symtab_num_local elf_symbols n rest with
      | none => none
      | some rs =>
        some (⟨(av + NLM_DATA_VADDR) % U32MOD, sym.index, R_386_32⟩ :: rs)
  | .relRefFromCode _ :: rest => dataRelocsForExt symtab_num_local elf_symbols n rest
  | .absRefFromCode _ :: rest => dataRelocsForExt symtab_num_local elf_symbols n rest

/-- The outer loop of the `.rel.data` pass. -/
def dataRelocs (symtab_num_local : Nat) (elf_symbols : List ElfSymbol)
    (n : Nat) : List NLMExternal → Option (List Rel)
  | [] => some []
  | ext :: rest =>
    match dataRelocsForExt symtab_num_local elf_symbols n ext.refs with
    | none => none
    | some rs =>
      match dataRelocs symtab_num_local elf_symbols (n + 1) rest with
      | none => none
      | some rs' => some (rs ++ rs')

/-- `.nlm.autoload` contents: the module names, each NUL-terminated. -/
def autoloadBytes : List (List Nat) → List Nat
  | [] => []
  | al :: rest => al ++ [0] ++ autoloadBytes rest

/-- `NLM::write_elf`, modelled as the logical ELF content it emits.  Steps in
source order: apply fixups to a copy of the image, read the externals, slice
the code and data sections out of the fixed image (the slices panic when the
header ranges exceed the image), read the autoload list and exports, collect
the symbols (null, exports, the three entry points, externals — with
`symtab_num_local = writer.symbol_count()` taken before the externals are
reserved), and produce the two relocation tables.  Layout reservation and
byte serialization are performed by the `object` crate and are not modelled. -/
def NLM.write_elf (nlm : NLM) : Option (Except NLMError ElfOutput) :=
  match nlm.get_fixups with
  | none => none
  | some (.error e) => some (.error e)
  | some (.ok fixups) =>
  match applyFixups nlm.header nlm.data fixups with
  | none => none
  | some nlm_data =>
  match nlm.get_externals with
  | none => none
  | some (.error e) => some (.error e)
  | some (.ok externals) =>
  if nlm.header.code_offs + nlm.header.code_len ≤ nlm_data.length then
   if nlm.header.data_offs + nlm.header.data_len ≤ nlm_data.length then
    match nlm.get_autoload with
    | none => none
    | some (.error e) => some (.error e)
    | some (.ok autoload) =>
    match nlm.get_exports with
    | none => none
    | some (.error e) => some (.error e)
    | some (.ok exports) =>
    match codeRelocs (1 + exports.length + 3)
            (elfSymbolsOf nlm.header exports externals) 0 externals with
    | none => none
    | some rel_text =>
    match dataRelocs (1 + exports.length + 3)
            (elfSymbolsOf nlm.header exports externals) 0 externals with
    | none => none
    | some rel_data =>
    some (.ok
      { entry := (nlm.header.start_offs + NLM_CODE_VADDR) % U32MOD
        programHeaders :=
          [⟨PT_LOAD, PF_R ||| PF_X, NLM_CODE_VADDR, NLM_CODE_VADDR,
              nlm.header.code_len, nlm.header.code_len, 16⟩,
           ⟨PT_LOAD, PF_R ||| PF_W, NLM_DATA_VADDR, NLM_DATA_VADDR,
              nlm.header.data_len, nlm.header.data_len, 16⟩]
        symbols := nullWrittenSym ::
          (elfSymbolsOf nlm.header exports externals).map ElfSymbol.toWritten
        symtabShInfo := 1 + exports.length + 3
        relText := rel_text
        relData := rel_data
        codeBytes := (nlm_data.drop nlm.header.code_offs).take nlm.header.code_len
        dataBytes := (nlm_data.drop nlm.header.data_offs).take nlm.header.data_len
        autoloadContent := autoloadBytes autoload })
   else none
  else none

/-- An output artifact produced by `main`. -/
inductive OutArtifact where
  | elf (out : ElfOutput)
  | nlm (bytes : List Nat)
deriving Repr, DecidableEq

/-- `main` with both file names supplied (and optionally the third): read the
input, `NLM::new`, `write_elf`, optionally `write_nlm`.  The returned list is
every output artifact written; an error propagated by `?` produces none. -/
def main_run (data : List Nat) (emit_nlm : Bool) :
    Option (Except NLMError (List OutArtifact)) :=
  match NLM.new data with
  | none => none
  | some (.error e) => some (.error e)
  | some (.ok nlm) =>
    match nlm.write_elf with
    | none => none
    | some (.error e) => some (.error e)
    | some (.ok elfOut) =>
      some (.ok (OutArtifact.elf elfOut ::
        (if emit_nlm then [OutArtifact.nlm nlm.write_nlm] else [])))

/-! ## Concrete test images -/

/-- Four little-endian bytes of a `u32`. -/
def le4 (n : Nat) : List Nat := [n % 256, n / 256 % 256, n / 65536 % 256, n / 16777216 % 256]

/-- A 123-byte header image from magic, load version and the twenty `u32`
fields in layout order (name and `nlm_type` zero). -/
def mkHeaderBytes (magic : List Nat) (lv : Nat) (fields : List Nat) : List Nat :=
  magic ++ le4 lv ++ List.replicate 14 0 ++ (fields.map le4).flatten ++ [0]

/-- A minimal packed image: valid magic, `load_version = 0x84`, zero tables,
and at offset 400 a bit stream declaring preamble `(1, 10)`, total length 401,
three single-leaf trees and one literal command producing the byte `0xAA`. -/
def c1Input : List Nat :=
  mkHeaderBytes nlmMagic 0x84 [0,0, 0,0, 0, 0,0, 0,0, 0,0, 0,0, 0,0, 0,0, 0,0,0] ++
    List.replicate 277 0 ++ [0x01, 0x0a, 0x91, 0x01, 0x00, 0x00, 0x55, 0x03, 0x04, 0x08]

def c1Hdr : NLMHeader := (NLMHeader.fromBytes? c1Input).getD default

/-- The image `NLM::new` reconstructs from `c1Input`. -/
def c1Unpacked : List Nat := ((c1Input.take NLM_PACKED_OFFSET) ++ [0xaa]).set 0x18 0x4

/-- The E1-style minimal uncompressed NLM: valid magic, `load_version = 4`,
4 code bytes `C3 00 00 00` at offset 123, everything else empty. -/
def c6Input : List Nat :=
  mkHeaderBytes nlmMagic 4 [123,4, 0,0, 0, 0,0, 0,0, 0,0, 0,0, 0,0, 0,0, 0,0,0] ++
    [0xc3, 0x00, 0x00, 0x00]

def c6Hdr : NLMHeader := (NLMHeader.fromBytes? c6Input).getD default

/-- `c6Input` with the first magic byte corrupted (`X` instead of `N`). -/
def c3Input : List Nat :=
  mkHeaderBytes (88 :: nlmMagic.tail) 4
    [123,4, 0,0, 0, 0,0, 0,0, 0,0, 0,0, 0,0, 0,0, 0,0,0] ++ [0xc3, 0x00, 0x00, 0x00]

def c3Hdr : NLMHeader := (NLMHeader.fromBytes? c3Input).getD default

/-- An uncompressed NLM with one external `printf` referenced once from code
(ref-word `0x40000010`) and one code export `foo` at offset 4. -/
def c78Input : List Nat :=
  mkHeaderBytes nlmMagic 4 [123,32, 0,0, 0, 0,0, 0,0, 0,0, 155,1, 170,1, 0,0, 0,0,0] ++
    List.replicate 32 0 ++
    ([6] ++ strBytes "printf" ++ [1,0,0,0] ++ le4 0x40000010) ++
    ([3] ++ strBytes "foo" ++ le4 0x80000004)

def c78Hdr : NLMHeader := (NLMHeader.fromBytes? c78Input).getD default

def c78Nlm : NLM := ⟨c78Hdr, c78Input⟩

/-- A packed image whose two preamble words decode to `(2, 0)`. -/
def c9Input : List Nat :=
  mkHeaderBytes nlmMagic 0x84 [0,0, 0,0, 0, 0,0, 0,0, 0,0, 0,0, 0,0, 0,0, 0,0,0] ++
    List.replicate 277 0 ++ [2, 0, 0, 0]

def c9Hdr : NLMHeader := (NLMHeader.fromBytes? c9Input).getD default

/-- An all-zero 123-byte image: parses, `load_version = 0`, not packed. -/
def c10Input : List Nat := List.replicate 123 0

def c10Hdr : NLMHeader := (NLMHeader.fromBytes? c10Input).getD default

def exceptIsOk : Except ε α → Bool
  | .ok _ => true
  | .error _ => false

/-! ## C2: copy-back distances -/

/-- The per-command distance bound asserted by the spec: strictly positive and
at most the current output length. -/
def CopyEvent.inRange (e : CopyEvent) : Bool :=
  decide (1 ≤ e.delta) && decide (e.delta ≤ e.out_len)

/-- A concrete packed command stream (one byte `0x40`): tag 0 selects a
copy-back, tree 2 decodes count 0, the 5 low offset bits are 0 and tree 3
decodes high offset 0, so the command computes distance 0 at output length 0;
the run then continues and finishes successfully. -/
def c2Run : Option (List Nat × List CopyEvent) :=
  unpack 20 (Streamer.new [0x40] 0) 1 (.leaf 0x42) (.leaf 0) (.leaf 0) [] []

/-- C2 counterexample: the unpacker completes successfully on a stream whose
copy-back command computes distance 0, which is not in the claimed range
`1 ≤ distance ≤ current output length`; no clamping takes place. -/
theorem c2_counterexample :
    c2Run = some ([0x42], [⟨0, 0, 0⟩]) ∧ CopyEvent.inRange ⟨0, 0, 0⟩ = false := by
  decide

/-- If one step of the copy loop succeeds, the read offset is inside the
output produced so far. -/
theorem copy_back_offset_lt {result : List Nat} {offset count : Nat} {r : List Nat}
    (h : copy_back result offset (count + 1) = some r) : offset < result.length := by
  unfold copy_back at h
  cases hx : result[offset]? with
  | none => rw [hx] at h; cases h
  | some b =>
    by_contra hge
    rw [List.getElem?_eq_none (by omega)] at hx
    cases hx

/-- The trace property extended across one recorded copy-back: the guard
gives the upper bound and a successful positive-count copy gives the lower
bound. -/
theorem copy_event_sound {res : List Nat} {delta cnt : Nat} {res2 : List Nat}
    (hd : delta ≤ res.length)
    (hc : copy_back res (res.length - delta) cnt = some res2) :
    delta ≤ res.length ∧ (1 ≤ cnt → 1 ≤ delta) := by
  refine ⟨hd, fun h1 => ?_⟩
  cases cnt with
  | zero => omega
  | succ c =>
    have := copy_back_offset_lt hc
    omega

/-- Trace soundness of the unpacker: in any successful run, every recorded
copy-back event has distance at most the output length at its point of use,
and a positive count forces a strictly positive distance. -/
theorem unpack_events_sound (fuel : Nat) :
    ∀ (s : Streamer) (dl : Nat) (t1 t2 t3 : Node) (res : List Nat)
      (tr : List CopyEvent) (res' : List Nat) (tr' : List CopyEvent),
      (∀ e ∈ tr, e.delta ≤ e.out_len ∧ (1 ≤ e.count → 1 ≤ e.delta)) →
      unpack fuel s dl t1 t2 t3 res tr = some (res', tr') →
      ∀ e ∈ tr', e.delta ≤ e.out_len ∧ (1 ≤ e.count → 1 ≤ e.delta) := by
  induction fuel with
  | zero =>
    intro s dl t1 t2 t3 res tr res' tr' htr h
    cases h
  | succ fuel ih =>
    intro s dl t1 t2 t3 res tr res' tr' htr h
    rw [unpack] at h
    split at h
    case isFalse hlen =>
      cases h
      exact htr
    case isTrue hlen =>
      split at h <;> try cases h
      rename_i v s1 heq1
      split at h
      case isTrue hv =>
        split at h <;> try cases h
        rename_i b1 s2 heq2
        exact ih _ _ _ _ _ _ _ _ _ htr h
      case isFalse hv =>
        split at h <;> try cases h
        rename_i b2 s2 heq2
        split at h
        case isTrue hb2 =>
          split at h <;> try cases h
          rename_i v5 s3 heq3
          split at h <;> try cases h
          rename_i b3 s4 heq4
          split at h
          case isTrue hd =>
            split at h <;> try cases h
            rename_i res2 heq5
            refine ih _ _ _ _ _ _ _ _ _ ?_ h
            intro e he
            rcases List.mem_append.mp he with he | he
            · exact htr e he
            · rcases List.mem_singleton.mp he with rfl
              exact copy_event_sound hd heq5
          case isFalse hd => cases h
        case isFalse hb2 =>
          split at h
          case isTrue hff =>
            split at h <;> try cases h
            rename_i res1 s3 heq3
            split at h <;> try cases h
            rename_i bl s4 heq4
            split at h <;> try cases h
            rename_i bh s5 heq5
            split at h <;> try cases h
            rename_i vv s6 heq6
            split at h <;> try cases h
            rename_i res2 s7 heq7
            exact ih _ _ _ _ _ _ _ _ _ htr h
          case isFalse hff =>
            split at h <;> try cases h
            rename_i b2' s3 heq3
            split at h <;> try cases h
            rename_i v5 s4 heq4
            split at h <;> try cases h
            rename_i b3 s5 heq5
            split at h
            case isTrue hd =>
              split at h <;> try cases h
              rename_i res2 heq6
              refine ih _ _ _ _ _ _ _ _ _ ?_ h
              intro e he
              rcases List.mem_append.mp he with he | he
              · exact htr e he
              · rcases List.mem_singleton.mp he with rfl
                exact copy_event_sound hd heq6
            case isFalse hd => cases h

/-- C2 (amended): the unpacker does not clamp copy-back distances; instead,
in every successful run each copy-back event satisfies
`distance ≤ current output length` (a larger distance makes the underflowing
subtraction fail), and every copy-back that copies at least one byte also
satisfies `1 ≤ distance`; a zero-count copy-back may compute distance 0. -/
theorem c2_unpack_distance_bounds (fuel dl : Nat) (s : Streamer) (t1 t2 t3 : Node)
    (result : List Nat) (trace : List CopyEvent)
    (h : unpack fuel s dl t1 t2 t3 [] [] = some (result, trace)) :
    ∀ e ∈ trace, e.delta ≤ e.out_len ∧ (1 ≤ e.count → 1 ≤ e.delta) :=
  unpack_events_sound fuel s dl t1 t2 t3 [] [] result trace (by simp) h

/-- Witness for C2 (amended) at the concrete stream of the counterexample. -/
theorem c2_witness :
    (⟨0, 0, 0⟩ : CopyEvent).delta ≤ (⟨0, 0, 0⟩ : CopyEvent).out_len ∧
    (1 ≤ (⟨0, 0, 0⟩ : CopyEvent).count → 1 ≤ (⟨0, 0, 0⟩ : CopyEvent).delta) :=
  c2_unpack_distance_bounds 20 1 (Streamer.new [0x40] 0) (.leaf 0x42) (.leaf 0)
    (.leaf 0) [0x42] [⟨0, 0, 0⟩] (by decide) ⟨0, 0, 0⟩ (by simp)

/-! ## C3, C9, C10: entry behavior of the converter -/

/-- C3 (code bug): `is_magic_valid` exists but is never called, so an image
whose 24-byte magic differs from the constant is not rejected: `NLM::new`
accepts `c3Input` (first magic byte corrupted) and `write_elf` emits a
complete ELF for it, where the claim requires a fatal failure on entry. -/
theorem c3_bad_magic_accepted :
    (NLMHeader.fromBytes? c3Input).map NLMHeader.is_magic_valid = some false ∧
    NLM.new c3Input = some (.ok ⟨c3Hdr, c3Input⟩) ∧
    (NLM.write_elf ⟨c3Hdr, c3Input⟩).map exceptIsOk = some true :=
  ⟨rfl, rfl, rfl⟩

/-- C9: a packed image whose two decoded preamble words are not `(1, 10)`
makes `NLM::new` fail with `InvalidCompression` carrying exactly those two
bytes, and `main` propagates the error before writing anything, with or
without the optional NLM output argument. -/
theorem c9_invalid_preamble (data : List Nat) (hdr : NLMHeader) (a b : Nat)
    (hhdr : NLMHeader.fromBytes? data = some hdr)
    (hpacked : hdr.load_version = 0x84)
    (hab : preamblePair data = some (a, b))
    (hbad : ¬(a = 1 ∧ b = 10)) :
    NLM.new data = some (.error (.invalidCompression a b)) ∧
    main_run data true = some (.error (.invalidCompression a b)) ∧
    main_run data false = some (.error (.invalidCompression a b)) := by
  have hnew : NLM.new data = some (.error (.invalidCompression a b)) := by
    rw [preamblePair] at hab
    cases h1 : (Streamer.new data NLM_PACKED_OFFSET).read_bits 8 with
    | none => simp only [h1] at hab; exact Option.noConfusion hab
    | some p1 =>
      obtain ⟨a1, s1⟩ := p1
      simp only [h1] at hab
      cases h2 : s1.read_bits 8 with
      | none => simp only [h2] at hab; exact Option.noConfusion hab
      | some p2 =>
        obtain ⟨b1, s2⟩ := p2
        simp only [h2] at hab
        injection hab with hab
        rw [Prod.mk.injEq] at hab
        obtain ⟨rfl, rfl⟩ := hab
        simp only [NLM.new, hhdr]
        rw [if_neg (show ¬(hdr.load_version ≠ 0x84) by simp [hpacked])]
        simp only [h1, h2]
        rw [if_pos (by tauto)]
  refine ⟨hnew, ?_, ?_⟩ <;> · rw [main_run, hnew]

/-- C10: an image whose parsed `load_version` is not `0x84` is stored by
`NLM::new` completely unchanged, and `write_nlm` then writes a byte-for-byte
copy of the original input. -/
theorem c10_unpacked_passthrough (data : List Nat) (hdr : NLMHeader)
    (hhdr : NLMHeader.fromBytes? data = some hdr)
    (hnp : hdr.load_version ≠ 0x84) :
    NLM.new data = some (.ok ⟨hdr, data⟩) ∧ NLM.write_nlm ⟨hdr, data⟩ = data := by
  constructor
  · rw [NLM.new, hhdr]
    simp only [if_pos hnp]
  · rfl

/-- Witness for C9 at `c9Input`, whose preamble decodes to `(2, 0)`. -/
theorem c9_witness :
    NLM.new c9Input = some (.error (.invalidCompression 2 0)) ∧
    main_run c9Input true = some (.error (.invalidCompression 2 0)) ∧
    main_run c9Input false = some (.error (.invalidCompression 2 0)) :=
  c9_invalid_preamble c9Input c9Hdr 2 0 (by decide) (by decide) (by decide) (by decide)

/-- Witness for C10 at the all-zero image `c10Input`. -/
theorem c10_witness :
    NLM.new c10Input = some (.ok ⟨c10Hdr, c10Input⟩) ∧
    NLM.write_nlm ⟨c10Hdr, c10Input⟩ = c10Input :=
  c10_unpacked_passthrough c10Input c10Hdr (by decide) (by decide)

/-! ## C5: fixup application is a frame-local increment -/

/-- `writeLE32` preserves the image length. -/
theorem writeLE32_length (data : List Nat) (offset v : Nat) :
    (writeLE32 data offset v).length = data.length := by
  simp [writeLE32]

/-- `writeLE32` touches only the four bytes at `offset`. -/
theorem writeLE32_getElem?_ne (data : List Nat) (offset v i : Nat)
    (h : i < offset ∨ offset + 4 ≤ i) :
    (writeLE32 data offset v)[i]? = data[i]? := by
  unfold writeLE32
  rw [List.getElem?_set_ne (by omega), List.getElem?_set_ne (by omega),
      List.getElem?_set_ne (by omega), List.getElem?_set_ne (by omega)]

/-- The four bytes written by `writeLE32` are the little-endian limbs of `v`. -/
theorem writeLE32_bytes (data : List Nat) (offset v : Nat)
    (h : offset + 4 ≤ data.length) :
    (writeLE32 data offset v)[offset]? = some (v % 256) ∧
    (writeLE32 data offset v)[offset + 1]? = some (v / 256 % 256) ∧
    (writeLE32 data offset v)[offset + 2]? = some (v / 65536 % 256) ∧
    (writeLE32 data offset v)[offset + 3]? = some (v / 16777216 % 256) := by
  unfold writeLE32
  refine ⟨?_, ?_, ?_, ?_⟩
  · rw [List.getElem?_set_ne (by omega), List.getElem?_set_ne (by omega),
        List.getElem?_set_ne (by omega), List.getElem?_set_self (by simpa using by omega)]
  · rw [List.getElem?_set_ne (by omega), List.getElem?_set_ne (by omega),
        List.getElem?_set_self (by simpa using by omega)]
  · rw [List.getElem?_set_ne (by omega),
        List.getElem?_set_self (by simpa using by omega)]
  · rw [List.getElem?_set_self (by simpa using by omega)]

/-- C5: applying one fixup changes the image only in the four bytes of the
little-endian word at `segment_offs + local_offs`, and that word is
incremented by exactly the selected vaddr modulo `2 ^ 32`. -/
theorem c5_fixup_frame (hdr : NLMHeader) (data : List Nat) (f : NLMFixup)
    (post : List Nat) (h : applyFixup hdr data f = some post) :
    post.length = data.length ∧
    (∀ i, i < (fixupTarget hdr f).1 ∨ (fixupTarget hdr f).1 + 4 ≤ i →
       post[i]? = data[i]?) ∧
    readLE32 post (fixupTarget hdr f).1 =
      (readLE32 data (fixupTarget hdr f).1 + (fixupTarget hdr f).2) % U32MOD := by
  rw [applyFixup] at h
  split at h
  case isFalse => cases h
  case isTrue hle =>
    injection h with h
    subst h
    refine ⟨writeLE32_length _ _ _, fun i hi => writeLE32_getElem?_ne _ _ _ _ hi, ?_⟩
    obtain ⟨e0, e1, e2, e3⟩ := writeLE32_bytes data (fixupTarget hdr f).1
      ((readLE32 data (fixupTarget hdr f).1 + (fixupTarget hdr f).2) % U32MOD) hle
    rw [readLE32, List.getD_eq_getElem?_getD, List.getD_eq_getElem?_getD,
        List.getD_eq_getElem?_getD, List.getD_eq_getElem?_getD, e0, e1, e2, e3]
    simp only [Option.getD_some, U32MOD]
    omega

/-- Header used by the C5 witness: `code_offs = 4`, everything else zero. -/
def c5Hdr : NLMHeader := { (default : NLMHeader) with code_offs := 4 }

/-- Witness for C5: an `AbsRefToDataFromCode 0` fixup on an 8-byte image whose
word at offset 4 is 8 rewrites it to `0x40000008` and changes nothing else. -/
theorem c5_witness :
    applyFixup c5Hdr [0, 0, 0, 0, 8, 0, 0, 0] (.absRefToDataFromCode 0) =
      some [0, 0, 0, 0, 8, 0, 0, 64] ∧
    ([0, 0, 0, 0, 8, 0, 0, 64] : List Nat).length =
      ([0, 0, 0, 0, 8, 0, 0, 0] : List Nat).length ∧
    readLE32 [0, 0, 0, 0, 8, 0, 0, 64]
        (fixupTarget c5Hdr (.absRefToDataFromCode 0)).1 =
      (readLE32 [0, 0, 0, 0, 8, 0, 0, 0]
          (fixupTarget c5Hdr (.absRefToDataFromCode 0)).1 +
        (fixupTarget c5Hdr (.absRefToDataFromCode 0)).2) % U32MOD :=
  ⟨by decide,
   (c5_fixup_frame c5Hdr [0, 0, 0, 0, 8, 0, 0, 0] (.absRefToDataFromCode 0)
      [0, 0, 0, 0, 8, 0, 0, 64] (by decide)).1,
   (c5_fixup_frame c5Hdr [0, 0, 0, 0, 8, 0, 0, 0] (.absRefToDataFromCode 0)
      [0, 0, 0, 0, 8, 0, 0, 64] (by decide)).2.2⟩

/-! ## C6: the minimal uncompressed NLM -/

/-- The ELF content emitted for `c6Input`. -/
def c6Out : ElfOutput :=
  match NLM.write_elf ⟨c6Hdr, c6Input⟩ with
  | some (.ok o) => o
  | _ => default

/-- C6: converting the minimal uncompressed NLM (load_version 4, four code
bytes `C3 00 00 00`, empty tables) yields entry `0x10000000`, exactly one
`PT_LOAD` program header with `p_filesz = 4` and flags `PF_R|PF_X` (the other
program header is the data segment, `p_filesz = 0`, `PF_R|PF_W`), and a symbol
table holding only the null entry, `nlm_start`, `nlm_terminate` and
`nlm_check`. -/
theorem c6_minimal_elf :
    NLM.new c6Input = some (.ok ⟨c6Hdr, c6Input⟩) ∧
    NLM.write_elf ⟨c6Hdr, c6Input⟩ = some (.ok c6Out) ∧
    c6Out.entry = 0x10000000 ∧
    (c6Out.programHeaders.countP fun ph =>
        decide (ph.p_type = PT_LOAD) && decide (ph.p_filesz = 4) &&
          decide (ph.p_flags = (PF_R ||| PF_X))) = 1 ∧
    c6Out.symbols =
      [nullWrittenSym,
       ⟨strBytes "nlm_start", some true, STB_LOCAL * 16 + STT_FUNC, 0x10000000⟩,
       ⟨strBytes "nlm_terminate", some true, STB_LOCAL * 16 + STT_FUNC, 0x10000000⟩,
       ⟨strBytes "nlm_check", some true, STB_LOCAL * 16 + STT_FUNC, 0x10000000⟩] :=
  ⟨rfl, rfl, rfl, rfl, rfl⟩

/-! ## C7 and C8: symbol table and relocation structure -/

/-- Name of an export. -/
def exportName : NLMExport → List Nat
  | .code s _ => s
  | .data s _ => s

/-- Whether an export targets the code section. -/
def exportIsCode : NLMExport → Bool
  | .code _ _ => true
  | .data _ _ => false

/-- Symbol value of an export: segment offset plus the segment's vaddr. -/
def exportValue : NLMExport → Nat
  | .code _ v => v + NLM_CODE_VADDR
  | .data _ v => v + NLM_DATA_VADDR

theorem mkExportSym_toWritten (e : NLMExport) (idx : Nat) :
    (mkExportSym e idx).toWritten =
      ⟨exportName e, some (exportIsCode e), STB_LOCAL * 16 + STT_FUNC, exportValue e⟩ := by
  cases e <;> rfl

theorem exportSyms_length (l : List NLMExport) (idx : Nat) :
    (exportSyms l idx).length = l.length := by
  induction l generalizing idx with
  | nil => rfl
  | cons e rest ih => simp [exportSyms, ih]

theorem exportSyms_getElem? (l : List NLMExport) (idx n : Nat) :
    (exportSyms l idx)[n]? = (l[n]?).map (fun e => mkExportSym e (idx + n)) := by
  induction l generalizing idx n with
  | nil => simp [exportSyms]
  | cons e rest ih =>
    cases n with
    | zero => simp [exportSyms]
    | succ n =>
      simp only [exportSyms, List.getElem?_cons_succ, ih]
      have harith : idx + 1 + n = idx + (n + 1) := by omega
      rw [harith]

theorem externalSyms_length (l : List NLMExternal) (idx : Nat) :
    (externalSyms l idx).length = l.length := by
  induction l generalizing idx with
  | nil => rfl
  | cons e rest ih => simp [externalSyms, ih]

theorem externalSyms_getElem? (l : List NLMExternal) (idx n : Nat) :
    (externalSyms l idx)[n]? = (l[n]?).map (fun e => mkExternalSym e (idx + n)) := by
  induction l generalizing idx n with
  | nil => simp [externalSyms]
  | cons e rest ih =>
    cases n with
    | zero => simp [externalSyms]
    | succ n =>
      simp only [externalSyms, List.getElem?_cons_succ, ih]
      have harith : idx + 1 + n = idx + (n + 1) := by omega
      rw [harith]

/-- A written symbol is local iff the upper nibble of `st_info` is
`STB_LOCAL`. -/
def isLocalSym (s : WrittenSym) : Bool := decide (s.st_info / 16 = STB_LOCAL)

theorem exportSyms_countP_local (l : List NLMExport) (idx : Nat) :
    ((exportSyms l idx).map ElfSymbol.toWritten).countP isLocalSym = l.length := by
  induction l generalizing idx with
  | nil => rfl
  | cons e rest ih =>
    cases e <;>
      simp [exportSyms, mkExportSym, ElfSymbol.toWritten, List.countP_cons,
            isLocalSym, ih, STB_LOCAL, STT_FUNC]

theorem externalSyms_countP_local (l : List NLMExternal) (idx : Nat) :
    ((externalSyms l idx).map ElfSymbol.toWritten).countP isLocalSym = 0 := by
  induction l generalizing idx with
  | nil => rfl
  | cons e rest ih =>
    simp [externalSyms, mkExternalSym, ElfSymbol.toWritten, List.countP_cons,
          isLocalSym, ih, STB_LOCAL, STB_GLOBAL, STT_NOTYPE]

theorem elfSymbolsOf_length (hdr : NLMHeader) (exports : List NLMExport)
    (externals : List NLMExternal) :
    (elfSymbolsOf hdr exports externals).length =
      exports.length + 3 + externals.length := by
  simp [elfSymbolsOf, exportSyms_length, externalSyms_length, entrySyms]
  omega

theorem elfSymbolsOf_export (hdr : NLMHeader) (exports : List NLMExport)
    (externals : List NLMExternal) (i : Nat) (hi : i < exports.length) :
    (elfSymbolsOf hdr exports externals)[i]? =
      (exports[i]?).map (fun e => mkExportSym e (1 + i)) := by
  rw [elfSymbolsOf, List.getElem?_append_left
        (by simp [exportSyms_length, entrySyms] <;> omega),
      List.getElem?_append_left (by simpa [exportSyms_length] using hi),
      exportSyms_getElem?]

theorem elfSymbolsOf_entry (hdr : NLMHeader) (exports : List NLMExport)
    (externals : List NLMExternal) :
    (elfSymbolsOf hdr exports externals)[exports.length]? =
      some ⟨strBytes "nlm_start", exports.length + 1, some true,
            (hdr.start_offs + NLM_CODE_VADDR) % U32MOD, STB_LOCAL * 16 + STT_FUNC⟩ ∧
    (elfSymbolsOf hdr exports externals)[exports.length + 1]? =
      some ⟨strBytes "nlm_terminate", exports.length + 2, some true,
            (hdr.term_offs + NLM_CODE_VADDR) % U32MOD, STB_LOCAL * 16 + STT_FUNC⟩ ∧
    (elfSymbolsOf hdr exports externals)[exports.length + 2]? =
      some ⟨strBytes "nlm_check", exports.length + 3, some true,
            (hdr.check_offs + NLM_CODE_VADDR) % U32MOD, STB_LOCAL * 16 + STT_FUNC⟩ := by
  refine ⟨?_, ?_, ?_⟩ <;>
  · rw [elfSymbolsOf, List.getElem?_append_left
          (by simp [exportSyms_length, entrySyms] <;> omega),
        List.getElem?_append_right (by simp [exportSyms_length] <;> omega)]
    simp [exportSyms_length, entrySyms]

theorem elfSymbolsOf_external (hdr : NLMHeader) (exports : List NLMExport)
    (externals : List NLMExternal) (n : Nat) :
    (elfSymbolsOf hdr exports externals)[exports.length + 3 + n]? =
      (externals[n]?).map (fun ext => mkExternalSym ext (exports.length + 4 + n)) := by
  rw [elfSymbolsOf, List.getElem?_append_right
        (by simp [exportSyms_length, entrySyms] <;> omega),
      externalSyms_getElem?]
  have harith : exports.length + 3 + n -
      (exportSyms exports 1 ++ entrySyms hdr (exports.length + 1)).length = n := by
    simp [exportSyms_length, entrySyms]
  rw [harith]

/-- Decomposition of a successful `write_elf`: symbol table contents,
`sh_info`, and the `.rel.text` table, in terms of the parsed exports and
externals. -/
theorem write_elf_ok_spec (nlm : NLM) (out : ElfOutput) (exports : List NLMExport)
    (externals : List NLMExternal)
    (helf : nlm.write_elf = some (.ok out))
    (hexp : nlm.get_exports = some (.ok exports))
    (hext : nlm.get_externals = some (.ok externals)) :
    out.symbols = nullWrittenSym ::
      (elfSymbolsOf nlm.header exports externals).map ElfSymbol.toWritten ∧
    out.symtabShInfo = 1 + exports.length + 3 ∧
    codeRelocs (1 + exports.length + 3) (elfSymbolsOf nlm.header exports externals)
      0 externals = some out.relText := by
  rw [NLM.write_elf] at helf
  split at helf
  case h_1 => cases helf
  case h_2 => cases helf
  case h_3 =>
  rename_i fixups heqfix
  split at helf
  case h_1 => cases helf
  case h_2 =>
  rename_i nlm_data heqdata
  split at helf
  case h_1 => cases helf
  case h_2 => cases helf
  case h_3 =>
  rename_i externals1 heqext
  rw [hext] at heqext
  injection heqext with heqext
  injection heqext with heqext
  subst heqext
  split at helf
  case isFalse => cases helf
  case isTrue hc1 =>
  split at helf
  case isFalse => cases helf
  case isTrue hc2 =>
  split at helf
  case h_1 => cases helf
  case h_2 => cases helf
  case h_3 =>
  rename_i autoload heqauto
  split at helf
  case h_1 => cases helf
  case h_2 => cases helf
  case h_3 =>
  rename_i exports1 heqexp
  rw [hexp] at heqexp
  injection heqexp with heqexp
  injection heqexp with heqexp
  subst heqexp
  split at helf
  case h_1 => cases helf
  case h_2 =>
  rename_i rel_text heqrt
  split at helf
  case h_1 => cases helf
  case h_2 =>
  rename_i rel_data heqrd
  injection helf with helf
  injection helf with helf
  subst helf
  exact ⟨rfl, rfl, heqrt⟩


/-- C7: the symbol table of every emitted ELF holds, in order, the null
symbol, one LOCAL `STT_FUNC` symbol per export in table order, the three
LOCAL `STT_FUNC` entry points `nlm_start`, `nlm_terminate`, `nlm_check`, then
one GLOBAL `STT_NOTYPE` undefined symbol per external in table order; and the
`sh_info` of `.symtab` equals the number of local symbols including the null
entry. -/
theorem c7_symbol_table (nlm : NLM) (out : ElfOutput) (exports : List NLMExport)
    (externals : List NLMExternal)
    (helf : nlm.write_elf = some (.ok out))
    (hexp : nlm.get_exports = some (.ok exports))
    (hext : nlm.get_externals = some (.ok externals)) :
    out.symbols.length = 1 + exports.length + 3 + externals.length ∧
    out.symbols[0]? = some nullWrittenSym ∧
    (∀ i e, exports[i]? = some e →
       out.symbols[1 + i]? = some ⟨exportName e, some (exportIsCode e),
         STB_LOCAL * 16 + STT_FUNC, exportValue e⟩) ∧
    out.symbols[1 + exports.length]? =
      some ⟨strBytes "nlm_start", some true, STB_LOCAL * 16 + STT_FUNC,
            (nlm.header.start_offs + NLM_CODE_VADDR) % U32MOD⟩ ∧
    out.symbols[1 + exports.length + 1]? =
      some ⟨strBytes "nlm_terminate", some true, STB_LOCAL * 16 + STT_FUNC,
            (nlm.header.term_offs + NLM_CODE_VADDR) % U32MOD⟩ ∧
    out.symbols[1 + exports.length + 2]? =
      some ⟨strBytes "nlm_check", some true, STB_LOCAL * 16 + STT_FUNC,
            (nlm.header.check_offs + NLM_CODE_VADDR) % U32MOD⟩ ∧
    (∀ n ext, externals[n]? = some ext →
       out.symbols[1 + exports.length + 3 + n]? =
         some ⟨ext.name, none, STB_GLOBAL * 16 + STT_NOTYPE, 0⟩) ∧
    out.symtabShInfo = 1 + exports.length + 3 ∧
    out.symtabShInfo = out.symbols.countP isLocalSym := by
  obtain ⟨hsym, hinfo, -⟩ := write_elf_ok_spec nlm out exports externals helf hexp hext
  have hget : ∀ j : Nat, out.symbols[j + 1]? =
      ((elfSymbolsOf nlm.header exports externals)[j]?).map ElfSymbol.toWritten := by
    intro j
    rw [hsym, List.getElem?_cons_succ, List.getElem?_map]
  obtain ⟨he0, he1, he2⟩ := elfSymbolsOf_entry nlm.header exports externals
  refine ⟨?_, ?_, ?_, ?_, ?_, ?_, ?_, hinfo, ?_⟩
  · rw [hsym]
    simp [elfSymbolsOf_length]
    omega
  · rw [hsym]
    exact List.getElem?_cons_zero
  · intro i e he
    have hi : i < exports.length := by
      by_contra hge
      rw [List.getElem?_eq_none (by omega)] at he
      cases he
    have h1i : 1 + i = i + 1 := by omega
    rw [h1i, hget i, elfSymbolsOf_export nlm.header exports externals i hi, he]
    simp [mkExportSym_toWritten]
  · have h1 : 1 + exports.length = exports.length + 1 := by omega
    rw [h1, hget, he0]
    rfl
  · have h1 : 1 + exports.length + 1 = (exports.length + 1) + 1 := by omega
    rw [h1, hget, he1]
    rfl
  · have h1 : 1 + exports.length + 2 = (exports.length + 2) + 1 := by omega
    rw [h1, hget, he2]
    rfl
  · intro n ext hn
    have h1 : 1 + exports.length + 3 + n = (exports.length + 3 + n) + 1 := by omega
    rw [h1, hget, elfSymbolsOf_external, hn]
    rfl
  · rw [hinfo, hsym, List.countP_cons, elfSymbolsOf, List.map_append,
        List.map_append, List.countP_append, List.countP_append,
        exportSyms_countP_local, externalSyms_countP_local]
    simp [entrySyms, List.countP_cons, ElfSymbol.toWritten, isLocalSym,
          nullWrittenSym, STB_LOCAL, STT_FUNC] <;> omega

/-- Witness for C7 at `c78Input` (one export `foo`, one external `printf`):
the symbol-table length and `sh_info` clauses instantiated concretely. -/
theorem c7_witness :
    (match NLM.write_elf c78Nlm with
     | some (.ok o) => o
     | _ => default).symbols.length = 1 + 1 + 3 + 1 ∧
    (match NLM.write_elf c78Nlm with
     | some (.ok o) => o
     | _ => default).symtabShInfo = 1 + 1 + 3 :=
  ⟨((c7_symbol_table c78Nlm _ [.code (strBytes "foo") 4]
      [⟨strBytes "printf", [.relRefFromCode 0x10]⟩] rfl rfl rfl).1).trans (by rfl),
   (c7_symbol_table c78Nlm _ [.code (strBytes "foo") 4]
      [⟨strBytes "printf", [.relRefFromCode 0x10]⟩] rfl rfl rfl).2.2.2.2.2.2.2.1⟩



/-- Membership in the per-external `.rel.text` run: a `RelRefFromCode X` at
position `k` of the reference list yields the corresponding `R_386_PC32`
relocation. -/
theorem codeRelocsForExt_mem (snl : Nat) (syms : List ElfSymbol) (n : Nat) :
    ∀ (refs : List NLMExternalRef) (rels : List Rel) (k X : Nat) (sym : ElfSymbol),
      codeRelocsForExt snl syms n refs = some rels →
      refs[k]? = some (.relRefFromCode X) →
      syms[snl + n - 1]? = some sym →
      (⟨(X + NLM_CODE_VADDR) % U32MOD, sym.index, R_386_PC32⟩ : Rel) ∈ rels := by
  intro refs
  induction refs with
  | nil =>
    intro rels k X sym h hk hs
    rw [List.getElem?_eq_none (by simp)] at hk
    cases hk
  | cons r rest ih =>
    intro rels k X sym h hk hs
    cases k with
    | zero =>
      rw [List.getElem?_cons_zero] at hk
      injection hk with hk
      subst hk
      rw [codeRelocsForExt] at h
      simp only [hs] at h
      cases hrec : codeRelocsForExt snl syms n rest with
      | none => simp only [hrec] at h; exact Option.noConfusion h
      | some rs =>
        simp only [hrec] at h
        injection h with h
        subst h
        exact List.mem_cons_self ..
    | succ k =>
      rw [List.getElem?_cons_succ] at hk
      cases r with
      | relRefFromCode rv =>
        rw [codeRelocsForExt] at h
        cases hsym : syms[snl + n - 1]? with
        | none => simp only [hsym] at h; exact Option.noConfusion h
        | some sym2 =>
          simp only [hsym] at h
          cases hrec : codeRelocsForExt snl syms n rest with
          | none => simp only [hrec] at h; exact Option.noConfusion h
          | some rs =>
            simp only [hrec] at h
            injection h with h
            subst h
            exact List.mem_cons_of_mem _ (ih rs k X sym hrec hk hs)
      | absRefFromCode rv =>
        rw [codeRelocsForExt] at h
        cases hsym : syms[snl + n - 1]? with
        | none => simp only [hsym] at h; exact Option.noConfusion h
        | some sym2 =>
          simp only [hsym] at h
          cases hrec : codeRelocsForExt snl syms n rest with
          | none => simp only [hrec] at h; exact Option.noConfusion h
          | some rs =>
            simp only [hrec] at h
            injection h with h
            subst h
            exact List.mem_cons_of_mem _ (ih rs k X sym hrec hk hs)
      | relRefFromData rv =>
        rw [codeRelocsForExt] at h
        exact ih rels k X sym h hk hs
      | absRefFromData rv =>
        rw [codeRelocsForExt] at h
        exact ih rels k X sym h hk hs

/-- Membership in the full `.rel.text` table, externals enumerated from `m`. -/
theorem codeRelocs_mem (snl : Nat) (syms : List ElfSymbol) :
    ∀ (exts : List NLMExternal) (m : Nat) (rels : List Rel) (n k X : Nat)
      (ext : NLMExternal) (sym : ElfSymbol),
      codeRelocs snl syms m exts = some rels →
      exts[n]? = some ext →
      ext.refs[k]? = some (.relRefFromCode X) →
      syms[snl + (m + n) - 1]? = some sym →
      (⟨(X + NLM_CODE_VADDR) % U32MOD, sym.index, R_386_PC32⟩ : Rel) ∈ rels := by
  intro exts
  induction exts with
  | nil =>
    intro m rels n k X ext sym h hn hk hs
    rw [List.getElem?_eq_none (by simp)] at hn
    cases hn
  | cons e rest ih =>
    intro m rels n k X ext sym h hn hk hs
    rw [codeRelocs] at h
    cases h1 : codeRelocsForExt snl syms m e.refs with
    | none => simp only [h1] at h; exact Option.noConfusion h
    | some rs =>
      simp only [h1] at h
      cases h2 : codeRelocs snl syms (m + 1) rest with
      | none => simp only [h2] at h; exact Option.noConfusion h
      | some rs2 =>
        simp only [h2] at h
        injection h with h
        subst h
        cases n with
        | zero =>
          rw [List.getElem?_cons_zero] at hn
          injection hn with hn
          subst hn
          refine List.mem_append_left _
            (codeRelocsForExt_mem snl syms m _ rs k X sym h1 hk ?_)
          have harith : snl + m - 1 = snl + (m + 0) - 1 := by omega
          rw [harith]
          exact hs
        | succ n =>
          rw [List.getElem?_cons_succ] at hn
          refine List.mem_append_right _ (ih (m + 1) rs2 n k X ext sym h2 hn hk ?_)
          have harith : snl + (m + 1 + n) - 1 = snl + (m + (n + 1)) - 1 := by omega
          rw [harith]
          exact hs

/-- C8: every PC-relative code reference (top nibble 0x4) of external number
`n` at code offset `X` appears in `.rel.text` as a relocation with
`r_offset = X + 0x10000000`, `r_type = R_386_PC32`, and `r_sym` the `.symtab`
index of that external's symbol, which is written GLOBAL, `STT_NOTYPE`,
undefined with value 0.  (`X` is a masked 26-bit value, so the vaddr addition
cannot wrap.) -/
theorem c8_pc32_relocation (nlm : NLM) (out : ElfOutput) (exports : List NLMExport)
    (externals : List NLMExternal) (n k X : Nat) (ext : NLMExternal)
    (helf : nlm.write_elf = some (.ok out))
    (hexp : nlm.get_exports = some (.ok exports))
    (hext : nlm.get_externals = some (.ok externals))
    (hn : externals[n]? = some ext)
    (hk : ext.refs[k]? = some (.relRefFromCode X))
    (hX : X < 2 ^ 26) :
    (⟨X + NLM_CODE_VADDR, 1 + exports.length + 3 + n, R_386_PC32⟩ : Rel) ∈
      out.relText ∧
    out.symbols[1 + exports.length + 3 + n]? =
      some ⟨ext.name, none, STB_GLOBAL * 16 + STT_NOTYPE, 0⟩ := by
  obtain ⟨hsym, -, hrt⟩ := write_elf_ok_spec nlm out exports externals helf hexp hext
  have hsymlk : (elfSymbolsOf nlm.header exports externals)[1 + exports.length + 3 + (0 + n) - 1]? =
      some (mkExternalSym ext (exports.length + 4 + n)) := by
    have harith : 1 + exports.length + 3 + (0 + n) - 1 = exports.length + 3 + n := by omega
    rw [harith, elfSymbolsOf_external, hn]
    rfl
  have hmem := codeRelocs_mem (1 + exports.length + 3)
    (elfSymbolsOf nlm.header exports externals) externals 0 out.relText n k X ext
    (mkExternalSym ext (exports.length + 4 + n)) hrt hn hk hsymlk
  have hidx : (mkExternalSym ext (exports.length + 4 + n)).index =
      1 + exports.length + 3 + n := by
    have hraw : (mkExternalSym ext (exports.length + 4 + n)).index =
        exports.length + 4 + n := rfl
    omega
  constructor
  · have hlt : X + NLM_CODE_VADDR < U32MOD := by
      show X + 268435456 < 4294967296
      omega
    rw [Nat.mod_eq_of_lt hlt, hidx] at hmem
    exact hmem
  · have h1 : 1 + exports.length + 3 + n = (exports.length + 3 + n) + 1 := by omega
    rw [hsym, h1, List.getElem?_cons_succ, List.getElem?_map,
        elfSymbolsOf_external, hn]
    rfl

/-- Witness for C8 at `c78Input`: the `printf` reference from code offset
0x10 produces the expected `.rel.text` entry against symbol index 5. -/
theorem c8_witness :
    (⟨0x10 + NLM_CODE_VADDR, 1 + 1 + 3 + 0, R_386_PC32⟩ : Rel) ∈
      (match NLM.write_elf c78Nlm with
       | some (.ok o) => o
       | _ => default).relText ∧
    (match NLM.write_elf c78Nlm with
     | some (.ok o) => o
     | _ => default).symbols[1 + 1 + 3 + 0]? =
      some ⟨strBytes "printf", none, STB_GLOBAL * 16 + STT_NOTYPE, 0⟩ :=
  c8_pc32_relocation c78Nlm _ [.code (strBytes "foo") 4]
    [⟨strBytes "printf", [.relRefFromCode 0x10]⟩] 0 0 0x10
    ⟨strBytes "printf", [.relRefFromCode 0x10]⟩ rfl rfl rfl rfl rfl (by decide)



/-! ## C4: the bit streamer against the reference LSB-first extraction -/

/-- Bit `i` of the concatenated LSB-first bit string of a byte buffer. -/
def streamBit (data : List Nat) (i : Nat) : Bool :=
  Nat.testBit (data.getD (i / 8) 0) (i % 8)

/-- Reference LSB-first extraction of `k` consecutive bits starting at bit
position `start`: bit `j` of the result is stream bit `start + j`. -/
def refBits (data : List Nat) (start : Nat) : Nat → Nat
  | 0 => 0
  | k + 1 => (if streamBit data start then 1 else 0) + 2 * refBits data (start + 1) k

/-- Reference extraction of consecutive bit groups of widths `ks`. -/
def refSeq (data : List Nat) (start : Nat) : List Nat → List Nat
  | [] => []
  | k :: ks => refBits data start k :: refSeq data (start + k) ks

/-- Successive `read_bits` calls with the widths `ks`. -/
def read_bits_seq (s : Streamer) : List Nat → Option (List Nat × Streamer)
  | [] => some ([], s)
  | k :: ks =>
    match s.read_bits k with
    | none => none
    | some (v, s) =>
      match read_bits_seq s ks with
      | none => none
      | some (vs, s') => some (v :: vs, s')

/-- Global bit position of a streamer state: bits of all consumed bytes minus
the bits still buffered. -/
def Streamer.bitPos (s : Streamer) : Nat := 8 * s.pos - s.bits_left

/-- Invariant tying a streamer state to the byte buffer: bytes are in range,
the buffer holds only bits of already-consumed bytes, and bit `i` of `value`
is stream bit `bitPos + i` for every buffered `i`. -/
def Streamer.Inv (s : Streamer) : Prop :=
  (∀ b ∈ s.data, b < 256) ∧
  s.bits_left ≤ 8 * s.pos ∧
  s.pos ≤ s.data.length ∧
  ∀ i, i < s.bits_left →
    Nat.testBit s.value i = streamBit s.data (8 * s.pos - s.bits_left + i)

/-- `testBit` of a little-endian byte assembly reads the individual bytes
LSB-first. -/
theorem leVal_testBit (bs : List Nat) (h : ∀ b ∈ bs, b < 256) (j : Nat) :
    Nat.testBit (leVal bs) j =
      if j / 8 < bs.length then Nat.testBit (bs.getD (j / 8) 0) (j % 8)
      else false := by
  induction bs generalizing j with
  | nil => simp [leVal]
  | cons b rest ih =>
    have hb : b < 256 := h b (List.mem_cons_self ..)
    have hrest : ∀ x ∈ rest, x < 256 := fun x hx => h x (List.mem_cons_of_mem _ hx)
    rw [leVal]
    have hform : b + 256 * leVal rest = 2 ^ 8 * leVal rest + b := by ring
    rw [hform, Nat.testBit_mul_pow_two_add (leVal rest) (show b < 2 ^ 8 by omega) j]
    by_cases hj : j < 8
    · rw [if_pos hj]
      have hdiv : j / 8 = 0 := Nat.div_eq_of_lt hj
      have hmod : j % 8 = j := Nat.mod_eq_of_lt hj
      rw [hdiv, hmod, if_pos (by simp)]
      rfl
    · rw [if_neg hj]
      push_neg at hj
      rw [ih hrest (j - 8)]
      have h1 : (j - 8) / 8 = j / 8 - 1 := by omega
      have h2 : (j - 8) % 8 = j % 8 := by omega
      have h3 : 1 ≤ j / 8 := by omega
      rw [h1, h2]
      by_cases hlt : j / 8 - 1 < rest.length
      · rw [if_pos hlt, if_pos (by simp only [List.length_cons]; omega)]
        have h4 : j / 8 = (j / 8 - 1) + 1 := by omega
        rw [h4, List.getD_cons_succ]
        have h5 : j / 8 - 1 + 1 - 1 = j / 8 - 1 := by omega
        rw [h5]
      · rw [if_neg hlt, if_neg (by simp only [List.length_cons]; omega)]

/-- From bit zero to the returned `Nat`: `w % 2` is 1 exactly on a set low
bit. -/
theorem mod_two_of_testBit (w : Nat) (b : Bool) (h : Nat.testBit w 0 = b) :
    w % 2 = if b then 1 else 0 := by
  cases b <;> simp [Nat.testBit_zero] at h ⊢ <;> omega

/-- `fill_buffer_and_return_bit` returns the stream bit at the current
position and re-establishes the invariant one bit later (only reachable with
an empty bit buffer). -/
theorem fill_buffer_spec (s : Streamer) (hinv : s.Inv) (hbl : s.bits_left = 0)
    (hlt : s.pos < s.data.length) :
    ∃ s', s.fill_buffer_and_return_bit =
        some ((if streamBit s.data (8 * s.pos) then 1 else 0), s') ∧
      s'.Inv ∧ s'.data = s.data ∧ s'.bitPos = 8 * s.pos + 1 := by
  obtain ⟨hbytes, hble, hpos, hval⟩ := hinv
  rw [Streamer.fill_buffer_and_return_bit]
  by_cases hc : s.pos + 4 ≤ s.data.length
  · rw [if_pos hc]
    have hlen4 : ((s.data.drop s.pos).take 4).length = 4 := by
      simp [List.length_take, List.length_drop]
      omega
    have hb4 : ∀ x ∈ (s.data.drop s.pos).take 4, x < 256 :=
      fun x hx => hbytes x (List.drop_subset _ _ (List.take_subset _ _ hx))
    have hbit : ∀ j, j < 32 →
        Nat.testBit (leVal ((s.data.drop s.pos).take 4)) j =
          streamBit s.data (8 * s.pos + j) := by
      intro j hj
      rw [leVal_testBit _ hb4 j, hlen4, if_pos (by omega)]
      have e1 : ((s.data.drop s.pos).take 4).getD (j / 8) 0 =
          s.data.getD (s.pos + j / 8) 0 := by
        rw [List.getD_eq_getElem?_getD, List.getD_eq_getElem?_getD,
            List.getElem?_take_of_lt (by omega), List.getElem?_drop]
      have e2 : (8 * s.pos + j) / 8 = s.pos + j / 8 := by omega
      have e3 : (8 * s.pos + j) % 8 = j % 8 := by omega
      rw [streamBit, e2, e3, e1]
    refine ⟨Streamer.mk (leVal ((s.data.drop s.pos).take 4) / 2) 31 s.data
              (s.pos + 4),
            ?_, ⟨hbytes, by show (31 : Nat) ≤ 8 * (s.pos + 4); omega, hc, ?_⟩,
            rfl, ?_⟩
    · have h0 := hbit 0 (by omega)
      have e0 : 8 * s.pos + 0 = 8 * s.pos := by omega
      rw [e0] at h0
      rw [mod_two_of_testBit _ _ h0]
    · show ∀ i, i < 31 →
        Nat.testBit (leVal ((s.data.drop s.pos).take 4) / 2) i =
          streamBit s.data (8 * (s.pos + 4) - 31 + i)
      intro i hi
      rw [Nat.testBit_div_two, hbit (i + 1) (by omega)]
      have e4 : 8 * (s.pos + 4) - 31 + i = 8 * s.pos + (i + 1) := by omega
      rw [e4]
    · show 8 * (s.pos + 4) - 31 = 8 * s.pos + 1
      omega
  · rw [if_neg hc]
    have hk : (s.data.drop s.pos).length = s.data.length - s.pos := by
      simp [List.length_drop]
    have hk1 : 1 ≤ s.data.length - s.pos := by omega
    rw [if_neg (by rw [hk]; omega)]
    have hbrest : ∀ x ∈ s.data.drop s.pos, x < 256 :=
      fun x hx => hbytes x (List.drop_subset _ _ hx)
    have hbit : ∀ j, j < 8 * (s.data.length - s.pos) →
        Nat.testBit (leVal (s.data.drop s.pos)) j =
          streamBit s.data (8 * s.pos + j) := by
      intro j hj
      rw [leVal_testBit _ hbrest j, hk, if_pos (by omega)]
      have e1 : (s.data.drop s.pos).getD (j / 8) 0 =
          s.data.getD (s.pos + j / 8) 0 := by
        rw [List.getD_eq_getElem?_getD, List.getD_eq_getElem?_getD,
            List.getElem?_drop]
      have e2 : (8 * s.pos + j) / 8 = s.pos + j / 8 := by omega
      have e3 : (8 * s.pos + j) % 8 = j % 8 := by omega
      rw [streamBit, e2, e3, e1]
    refine ⟨Streamer.mk (leVal (s.data.drop s.pos) / 2)
              (s.bits_left + 8 * (s.data.drop s.pos).length - 1) s.data
              (max s.pos s.data.length),
            ?_, ⟨hbytes, ?_, ?_, ?_⟩, rfl, ?_⟩
    · have h0 := hbit 0 (by omega)
      have e0 : 8 * s.pos + 0 = 8 * s.pos := by omega
      rw [e0] at h0
      rw [mod_two_of_testBit _ _ h0]
    · show s.bits_left + 8 * (s.data.drop s.pos).length - 1 ≤
        8 * max s.pos s.data.length
      rw [hk, hbl]
      omega
    · show max s.pos s.data.length ≤ s.data.length
      omega
    · show ∀ i, i < s.bits_left + 8 * (s.data.drop s.pos).length - 1 →
        Nat.testBit (leVal (s.data.drop s.pos) / 2) i =
          streamBit s.data (8 * max s.pos s.data.length -
            (s.bits_left + 8 * (s.data.drop s.pos).length - 1) + i)
      intro i hi
      rw [hk, hbl] at hi
      rw [Nat.testBit_div_two, hbit (i + 1) (by omega)]
      have e4 : 8 * max s.pos s.data.length -
          (s.bits_left + 8 * (s.data.drop s.pos).length - 1) + i =
          8 * s.pos + (i + 1) := by
        rw [hk, hbl]
        omega
      rw [e4]
    · show 8 * max s.pos s.data.length -
          (s.bits_left + 8 * (s.data.drop s.pos).length - 1) = 8 * s.pos + 1
      rw [hk, hbl]
      omega

/-- `read_bit` returns the stream bit at the current position and advances it
by one. -/
theorem read_bit_spec (s : Streamer) (hinv : s.Inv)
    (hlt : s.bitPos < 8 * s.data.length) :
    ∃ s', s.read_bit =
        some ((if streamBit s.data s.bitPos then 1 else 0), s') ∧
      s'.Inv ∧ s'.data = s.data ∧ s'.bitPos = s.bitPos + 1 := by
  obtain ⟨hbytes, hble, hpos, hval⟩ := hinv
  rw [Streamer.read_bit]
  by_cases hbl : s.bits_left = 0
  · rw [if_neg (by omega)]
    have hplt : s.pos < s.data.length := by
      rw [Streamer.bitPos, hbl] at hlt
      omega
    obtain ⟨s', heq, hinv', hdata', hpos'⟩ :=
      fill_buffer_spec s ⟨hbytes, hble, hpos, hval⟩ hbl hplt
    have hbp : s.bitPos = 8 * s.pos := by
      rw [Streamer.bitPos, hbl]
      omega
    rw [hbp]
    exact ⟨s', heq, hinv', hdata', by omega⟩
  · rw [if_pos hbl]
    have h0 := hval 0 (by omega)
    refine ⟨Streamer.mk (s.value / 2) (s.bits_left - 1) s.data s.pos,
            ?_, ⟨hbytes, by show s.bits_left - 1 ≤ 8 * s.pos; omega, hpos, ?_⟩,
            rfl, ?_⟩
    · have e0 : 8 * s.pos - s.bits_left + 0 = s.bitPos := by
        rw [Streamer.bitPos]
        omega
      rw [e0] at h0
      rw [mod_two_of_testBit _ _ h0]
    · show ∀ i, i < s.bits_left - 1 →
        Nat.testBit (s.value / 2) i =
          streamBit s.data (8 * s.pos - (s.bits_left - 1) + i)
      intro i hi
      rw [Nat.testBit_div_two, hval (i + 1) (by omega)]
      have e1 : 8 * s.pos - (s.bits_left - 1) + i =
          8 * s.pos - s.bits_left + (i + 1) := by omega
      rw [e1]
    · show 8 * s.pos - (s.bits_left - 1) = s.bitPos + 1
      rw [Streamer.bitPos]
      omega

/-- The loop body of `read_bits` equals `read_bit` (branch order swapped). -/
theorem read_bits_step (s : Streamer) :
    (if s.bits_left = 0 then s.fill_buffer_and_return_bit
     else some (s.value % 2,
                { s with bits_left := s.bits_left - 1, value := s.value / 2 })) =
      s.read_bit := by
  rw [Streamer.read_bit]
  by_cases h : s.bits_left = 0 <;> simp [h]

/-- Setting a bit the accumulator does not have yet is a plain addition. -/
theorem lor_two_pow_eq_add {a i : Nat} (h : a < 2 ^ i) :
    a ||| 2 ^ i = a + 2 ^ i := by
  apply Nat.eq_of_testBit_eq
  intro j
  rw [Nat.testBit_lor]
  have hform : a + 2 ^ i = 2 ^ i * 1 + a := by ring
  rcases lt_trichotomy j i with hj | rfl | hj
  · rw [Nat.testBit_two_pow_of_ne (by omega), Bool.or_false, hform,
        Nat.testBit_mul_pow_two_add 1 h j, if_pos hj]
  · rw [Nat.testBit_two_pow_self, Nat.testBit_lt_two_pow h, Bool.false_or,
        hform, Nat.testBit_mul_pow_two_add 1 h j, if_neg (lt_irrefl j),
        Nat.sub_self]
    rfl
  · rw [Nat.testBit_two_pow_of_ne (by omega), Bool.or_false, hform,
        Nat.testBit_mul_pow_two_add 1 h j, if_neg (by omega)]
    have hlt : a < 2 ^ j :=
      lt_of_lt_of_le h (Nat.pow_le_pow_right (by omega) (by omega))
    rw [Nat.testBit_lt_two_pow hlt,
        show (1 : Nat) = 2 ^ 0 by rfl, Nat.testBit_two_pow_of_ne (by omega)]

/-- The accumulator loop of `read_bits`: starting with `result < 2 ^ bit`,
reading `n` more bits appends the reference extraction above bit `bit`. -/
theorem read_bits_aux_spec (n : Nat) :
    ∀ (bit result : Nat) (s : Streamer), s.Inv →
      s.bitPos + n ≤ 8 * s.data.length → result < 2 ^ bit →
      ∃ s', Streamer.read_bits_aux n bit result s =
          some (result + 2 ^ bit * refBits s.data s.bitPos n, s') ∧
        s'.Inv ∧ s'.data = s.data ∧ s'.bitPos = s.bitPos + n := by
  induction n with
  | zero =>
    intro bit result s hinv hle hres
    refine ⟨s, ?_, hinv, rfl, by omega⟩
    rw [Streamer.read_bits_aux, refBits]
    norm_num
  | succ n ih =>
    intro bit result s hinv hle hres
    obtain ⟨s1, hbit, hinv1, hdata1, hpos1⟩ := read_bit_spec s hinv (by omega)
    rw [Streamer.read_bits_aux, read_bits_step]
    simp only [hbit]
    have hres1 : (if (if streamBit s.data s.bitPos then 1 else 0) ≠ 0 then
        result ||| 2 ^ bit else result) =
        result + (if streamBit s.data s.bitPos then 1 else 0) * 2 ^ bit := by
      cases hsb : streamBit s.data s.bitPos
      · simp
      · simp [lor_two_pow_eq_add hres]
    rw [hres1]
    have hlt1 : result + (if streamBit s.data s.bitPos then 1 else 0) * 2 ^ bit <
        2 ^ (bit + 1) := by
      have h2 : 2 ^ (bit + 1) = 2 ^ bit * 2 := by ring
      cases streamBit s.data s.bitPos <;> simp <;> omega
    obtain ⟨s', heq, hinv', hdata', hpos'⟩ :=
      ih (bit + 1) _ s1 hinv1 (by rw [hdata1, hpos1]; omega) hlt1
    rw [hdata1, hpos1] at heq
    rw [heq]
    refine ⟨s', ?_, hinv', by rw [hdata', hdata1], by rw [hpos', hpos1]; omega⟩
    have hrefs : refBits s.data s.bitPos (n + 1) =
        (if streamBit s.data s.bitPos then 1 else 0) +
          2 * refBits s.data (s.bitPos + 1) n := rfl
    rw [hrefs]
    have h2 : 2 ^ (bit + 1) = 2 ^ bit * 2 := by ring
    cases streamBit s.data s.bitPos <;> simp <;> ring

/-- `read_bits k` returns the reference extraction of the next `k` bits. -/
theorem read_bits_spec (s : Streamer) (k : Nat) (hinv : s.Inv)
    (hle : s.bitPos + k ≤ 8 * s.data.length) :
    ∃ s', s.read_bits k = some (refBits s.data s.bitPos k, s') ∧ s'.Inv ∧
      s'.data = s.data ∧ s'.bitPos = s.bitPos + k := by
  obtain ⟨s', h, hi, hd, hp⟩ := read_bits_aux_spec k 0 0 s hinv hle (by norm_num)
  rw [Streamer.read_bits, h]
  refine ⟨s', ?_, hi, hd, hp⟩
  norm_num

/-- Sequencing `read_bits` over a width list matches the reference
extraction of consecutive groups. -/
theorem read_bits_seq_spec (ks : List Nat) :
    ∀ s : Streamer, s.Inv → s.bitPos + ks.sum ≤ 8 * s.data.length →
      ∃ s', read_bits_seq s ks = some (refSeq s.data s.bitPos ks, s') ∧
        s'.Inv ∧ s'.data = s.data ∧ s'.bitPos = s.bitPos + ks.sum := by
  induction ks with
  | nil =>
    intro s hinv _
    exact ⟨s, rfl, hinv, rfl, by simp⟩
  | cons k ks ih =>
    intro s hinv hle
    have hsum : ks.sum + k = (k :: ks).sum := by simp [List.sum_cons]; omega
    obtain ⟨s1, h1, hi1, hd1, hp1⟩ := read_bits_spec s k hinv (by omega)
    obtain ⟨s2, h2, hi2, hd2, hp2⟩ := ih s1 hi1 (by rw [hd1, hp1]; omega)
    rw [hd1, hp1] at h2
    rw [read_bits_seq]
    simp only [h1, h2]
    refine ⟨s2, rfl, hi2, by rw [hd2, hd1], ?_⟩
    rw [hp2, hp1]
    omega

/-- C4: over any byte buffer `B`, successive `read_bits(k_i)` calls with
widths in `1..=32` whose total does not exceed the bit length of `B` return
exactly the reference LSB-first extraction of consecutive `k_i`-bit groups;
the word-at-a-time refill with tail-byte fallback does not reorder bits. -/
theorem c4_read_bits_refinement (B ks : List Nat) (hB : ∀ b ∈ B, b < 256)
    (hsum : ks.sum ≤ 8 * B.length) (hk : ∀ k ∈ ks, 1 ≤ k ∧ k ≤ 32) :
    (read_bits_seq (Streamer.new B 0) ks).map Prod.fst = some (refSeq B 0 ks) := by
  have hinv : (Streamer.new B 0).Inv := by
    refine ⟨hB, by simp [Streamer.new], by simp [Streamer.new], ?_⟩
    intro i hi
    simp [Streamer.new] at hi
  obtain ⟨s', h, -, -, -⟩ := read_bits_seq_spec ks (Streamer.new B 0) hinv
    (by simpa [Streamer.new, Streamer.bitPos] using hsum)
  rw [h]
  rfl

/-- Witness for C4: the buffer `[0xB5, 0x01]` with widths `[3, 5, 8]`, where
the reference extraction yields `[5, 22, 1]`. -/
theorem c4_witness :
    (read_bits_seq (Streamer.new [0xb5, 0x01] 0) [3, 5, 8]).map Prod.fst =
      some (refSeq [0xb5, 0x01] 0 [3, 5, 8]) ∧
    refSeq [0xb5, 0x01] 0 [3, 5, 8] = [5, 22, 1] :=
  ⟨c4_read_bits_refinement [0xb5, 0x01] [3, 5, 8] (by decide) (by decide)
     (by decide), by decide⟩



/-! ## C1: decompression preserves the header region -/

/-- C1: whenever `NLM::new` succeeds on a packed image (`load_version =
0x84`) whose preamble declares total length `L`, the reconstructed image has
exactly `L` bytes, agrees with the packed input on every byte below offset
400 except byte `0x18`, and byte `0x18` is `0x04`. -/
theorem c1_unpack_preserves_header (data : List Nat) (hdr : NLMHeader)
    (nlm : NLM) (L : Nat)
    (hhdr : NLMHeader.fromBytes? data = some hdr)
    (hpacked : hdr.load_version = 0x84)
    (hnew : NLM.new data = some (.ok nlm))
    (hL : declaredLength data = some L) :
    nlm.data.length = L ∧ nlm.data.getD 0x18 0 = 0x4 ∧
    ∀ i, i < NLM_PACKED_OFFSET → i ≠ 0x18 →
      nlm.data.getD i 0 = data.getD i 0 := by
  have e400 : NLM_PACKED_OFFSET = 400 := rfl
  simp only [NLM.new, hhdr] at hnew
  rw [if_neg (by simp [hpacked])] at hnew
  split at hnew
  case h_1 => cases hnew
  case h_2 =>
  rename_i a s1 heq1
  split at hnew
  case h_1 => cases hnew
  case h_2 =>
  rename_i b s2 heq2
  split at hnew
  case isTrue => cases hnew
  case isFalse hab =>
  split at hnew
  case h_1 => cases hnew
  case h_2 =>
  rename_i length s3 heq3
  split at hnew
  case h_1 => cases hnew
  case h_2 =>
  rename_i tree1 s4 heq4
  split at hnew
  case h_1 => cases hnew
  case h_2 =>
  rename_i tree2 s5 heq5
  split at hnew
  case h_1 => cases hnew
  case h_2 =>
  rename_i tree3 s6 heq6
  split at hnew
  case isFalse => cases hnew
  case isTrue h400 =>
  split at hnew
  case h_1 => cases hnew
  case h_2 =>
  rename_i unpacked trace heq7
  split at hnew
  case isFalse => cases hnew
  case isTrue hdlen =>
  split at hnew
  case isFalse => cases hnew
  case isTrue hulen =>
  injection hnew with hnew
  injection hnew with hnew
  have hdata : nlm.data =
      ((data.take NLM_PACKED_OFFSET) ++ unpacked).set 0x18 0x4 := by
    rw [← hnew]
  rw [declaredLength] at hL
  simp only [heq1, heq2, heq3] at hL
  injection hL with hL
  subst hL
  rw [e400] at h400 hdlen hulen
  refine ⟨?_, ?_, ?_⟩
  · rw [hdata]
    simp only [List.length_set, List.length_append, List.length_take, e400]
    omega
  · rw [hdata, List.getD_eq_getElem?_getD,
        List.getElem?_set_self
          (by simp only [List.length_append, List.length_take, e400]; omega)]
    rfl
  · intro i hi hne
    rw [e400] at hi
    rw [hdata, List.getD_eq_getElem?_getD, List.getD_eq_getElem?_getD,
        List.getElem?_set_ne (by omega),
        List.getElem?_append_left
          (by simp only [List.length_take, e400]; omega),
        List.getElem?_take_of_lt (by omega)]

/-- Witness for C1 at the concrete packed image `c1Input` (declared length
401, one literal command decompressing to the byte `0xAA`). -/
theorem c1_witness :
    NLMHeader.fromBytes? c1Input = some c1Hdr ∧
    c1Hdr.load_version = 0x84 ∧
    NLM.new c1Input = some (.ok ⟨c1Hdr, c1Unpacked⟩) ∧
    declaredLength c1Input = some 401 ∧
    (⟨c1Hdr, c1Unpacked⟩ : NLM).data.length = 401 ∧
    (⟨c1Hdr, c1Unpacked⟩ : NLM).data.getD 0x18 0 = 0x4 ∧
    (⟨c1Hdr, c1Unpacked⟩ : NLM).data.getD 0 0 = c1Input.getD 0 0 :=
  ⟨rfl, rfl, rfl, rfl,
   (c1_unpack_preserves_header c1Input c1Hdr ⟨c1Hdr, c1Unpacked⟩ 401
      rfl rfl rfl rfl).1,
   (c1_unpack_preserves_header c1Input c1Hdr ⟨c1Hdr, c1Unpacked⟩ 401
      rfl rfl rfl rfl).2.1,
   (c1_unpack_preserves_header c1Input c1Hdr ⟨c1Hdr, c1Unpacked⟩ 401
      rfl rfl rfl rfl).2.2 0 (by decide) (by decide)⟩


end Nlm2Elf
